import Mathlib

/-
Verification development for the plasmactl-chassis repository.

The chassis document is held as a parsed YAML node tree (gopkg.in/yaml.v3
yaml.Node).  We embed the node tree as the inductive type YNode below,
keeping the fields the chassis code reads and writes: Kind, Tag, Value and
Content.  Formatting-only fields of yaml.Node (Style, Line, Column, comments)
are never touched by the chassis mutation code, so they are omitted; with
them fixed, the serialized byte form produced by Save (yaml.Marshal of the
node) is a function of the embedded tree, and byte-identity of the
serialized document corresponds to equality of YNode values.

Each section of this file names the Go source it embeds.  The auxiliary
"data" mirror field of the Chassis struct (map[string]map[string][]interface)
feeds only the GetTree display helper; none of the operations verified here
(Flatten, Exists, Add, Remove, Rename, Save, registry updates) read it, so it
is not modelled.
-/

/-! ### String helpers

Paths are dotted strings.  Go's strings package functions used by the
chassis code are embedded over the character list of the string:
strings.Split(s, ".") becomes splitDot, strings.HasPrefix becomes
strStartsWith, and joining segments with "." becomes joinDot. -/

/-- Character-level embedding of Go strings.Split(s, "."): split at every
dot, keeping empty pieces; a string with no dot yields one piece. -/
def splitDotChars : List Char → List (List Char)
  | [] => [[]]
  | c :: cs =>
    if c = '.' then [] :: splitDotChars cs
    else
      match splitDotChars cs with
      | r :: rs => (c :: r) :: rs
      | [] => [[c]]

/-- Go strings.Split(path, ".") on a Lean string. -/
def splitDot (s : String) : List String :=
  (splitDotChars s.data).map String.mk

/-- Join segments with dots: the inverse of splitDot on segment lists. -/
def joinDot : List String → String
  | [] => ""
  | [s] => s
  | s :: rest => s ++ "." ++ joinDot rest

/-- Go strings.HasPrefix(s, p). -/
def strStartsWith (s p : String) : Bool :=
  p.data.isPrefixOf s.data

theorem splitDotChars_ne_nil (cs : List Char) : splitDotChars cs ≠ [] := by
  induction cs with
  | nil => simp [splitDotChars]
  | cons c cs ih =>
    by_cases h : c = '.'
    · simp [splitDotChars, h]
    · simp only [splitDotChars, if_neg h]
      cases hs : splitDotChars cs with
      | nil => simp
      | cons r rs => simp

/-- Character-level join, for the split/join roundtrip proof. -/
def joinDotChars : List (List Char) → List Char
  | [] => []
  | [r] => r
  | r :: rest => r ++ '.' :: joinDotChars rest

theorem joinDotChars_splitDotChars (cs : List Char) :
    joinDotChars (splitDotChars cs) = cs := by
  induction cs with
  | nil => simp [splitDotChars, joinDotChars]
  | cons c cs ih =>
    by_cases h : c = '.'
    · subst h
      simp only [splitDotChars, if_pos rfl]
      cases hs : splitDotChars cs with
      | nil => exact absurd hs (splitDotChars_ne_nil cs)
      | cons r rs =>
        rw [hs] at ih
        simp [joinDotChars, ih]
    · simp only [splitDotChars, if_neg h]
      cases hs : splitDotChars cs with
      | nil => exact absurd hs (splitDotChars_ne_nil cs)
      | cons r rs =>
        rw [hs] at ih
        cases rs with
        | nil => simpa [joinDotChars] using ih
        | cons r2 rs2 => simpa [joinDotChars] using ih

theorem data_joinDot_map_mk (ls : List (List Char)) :
    (joinDot (ls.map String.mk)).data = joinDotChars ls := by
  induction ls with
  | nil => simp [joinDot, joinDotChars]
  | cons r rest ih =>
    cases rest with
    | nil => simp [joinDot, joinDotChars]
    | cons r2 rs2 =>
      simp only [List.map_cons, joinDot, joinDotChars]
      rw [String.data_append, String.data_append]
      have ih2 : (joinDot (String.mk r2 :: List.map String.mk rs2)).data
          = joinDotChars (r2 :: rs2) := ih
      rw [ih2]
      simp

/-- Go strings.Split and joining with dots are mutually inverse on strings,
matching the round trip performed implicitly by the chassis code. -/
theorem joinDot_splitDot (s : String) : joinDot (splitDot s) = s := by
  apply String.ext
  rw [splitDot, data_joinDot_map_mk, joinDotChars_splitDotChars]

/-- splitDot never returns an empty list (strings.Split always yields at
least one piece). -/
theorem splitDot_ne_nil (s : String) : splitDot s ≠ [] := by
  simp [splitDot, splitDotChars_ne_nil]

/-! ### The YAML node tree

Embedding of gopkg.in/yaml.v3 yaml.Node as used by the chassis code:
Kind (document, mapping, sequence, scalar), Tag, Value, Content. -/

inductive YKind : Type where
  | document : YKind
  | mapping : YKind
  | sequence : YKind
  | scalar : YKind
deriving DecidableEq, Repr

inductive YNode : Type where
  | mk : YKind → String → String → List YNode → YNode

/-- The Kind field of a node. -/
def YNode.kind : YNode → YKind
  | .mk k _ _ _ => k

/-- The Tag field of a node. -/
def YNode.tag : YNode → String
  | .mk _ t _ _ => t

/-- The Value field of a node. -/
def YNode.value : YNode → String
  | .mk _ _ v _ => v

/-- The Content field of a node. -/
def YNode.content : YNode → List YNode
  | .mk _ _ _ c => c

/-- A fresh scalar node as built by the Go code:
yaml.Node with Kind ScalarNode, Tag "!!str", Value s. -/
def scalarStr (s : String) : YNode := .mk .scalar "!!str" s []

/-- A fresh empty mapping node: yaml.Node with Kind MappingNode only. -/
def emptyMapping : YNode := .mk .mapping "" "" []

/-! ### Flatten and Exists

Embedding of Chassis.Flatten, flattenSequence and Chassis.Exists from
pkg/chassis/chassis.go (the copy in internal/chassis/chassis.go is
identical).  Go iterates mapping Content two entries at a time
(key at i, value at i+1); parsed YAML mappings always have even Content,
and the embedding returns early on a trailing odd entry. -/

theorem YNode.sizeOf_content_lt (n : YNode) : sizeOf n.content < sizeOf n := by
  cases n with
  | mk k t v c =>
    simp only [YNode.content, YNode.mk.sizeOf_spec]
    omega

mutual

def flattenSeqItems (pre : String) : List YNode → List String
  | [] => []
  | item :: rest =>
    (match item with
     | .mk .scalar _ v _ => [pre ++ "." ++ v]
     | .mk .mapping _ _ c => flattenMapPairs pre c
     | _ => []) ++ flattenSeqItems pre rest
termination_by l => sizeOf l

def flattenMapPairs (pre : String) : List YNode → List String
  | k :: v :: rest =>
    (pre ++ "." ++ k.value) ::
      ((if v.kind = .sequence then flattenSeqItems (pre ++ "." ++ k.value) v.content
        else []) ++ flattenMapPairs pre rest)
  | _ => []
termination_by l => sizeOf l
decreasing_by
  · have h := YNode.sizeOf_content_lt v
    simp only [List.cons.sizeOf_spec]
    omega
  · simp only [List.cons.sizeOf_spec]
    omega

end

/-- The root-key loop of Chassis.Flatten: emit each root key, then its
layer mapping (whose per-layer loop coincides with flattenMapPairs). -/
def flattenRootPairs : List YNode → List String
  | k :: v :: rest =>
    k.value :: ((if v.kind = .mapping then flattenMapPairs k.value v.content
                 else []) ++ flattenRootPairs rest)
  | _ => []

/-- Chassis.Flatten: all chassis paths in tree traversal order. -/
def Flatten (doc : YNode) : List String :=
  match doc.content with
  | [] => []
  | root :: _ => if root.kind = .mapping then flattenRootPairs root.content else []

/-- Chassis.Exists: membership in Flatten. -/
def existsPath (doc : YNode) (p : String) : Bool :=
  (Flatten doc).contains p

/-! ### Errors

Go reports errors as formatted strings; the embedding models each
distinct error return site as a constructor. -/

inductive ChassisErr : Type where
  | invalidPath : String → ChassisErr
  | alreadyExists : String → ChassisErr
  | emptyPath : ChassisErr
  | notFound : String → ChassisErr
deriving DecidableEq, Repr

/-! ### Add

Embedding of Chassis.Add, findOrCreateMapKey and addPathToSequence from
src/unnamed/part_011 (the internal wrapper; the copy in
internal/chassis/chassis.go is identical except that it lacks the
ValidatePath call). -/

/-- Modelled from the spec: pkgchassis.ValidatePath is called by Chassis.Add
but its definition is not among the provided sources.  Spec section 7 defines
InvalidPathError as "empty or otherwise ungrammatical path" and section 3
defines a path as a non-empty sequence of non-empty, dot-free segments, so
validation succeeds exactly when every dot-separated segment is non-empty
(the empty string splits into one empty segment and is rejected). -/
def validatePathOk (p : String) : Bool :=
  (splitDot p).all (fun seg => seg != "")

/-- Replace a node's Content, keeping Kind, Tag and Value. -/
def setContent (n : YNode) (c : List YNode) : YNode :=
  .mk n.kind n.tag n.value c

/-- The in-place coercion "layerValueNode.Kind = SequenceNode;
layerValueNode.Content = nil" performed by Add when the found value node is
not already a sequence. -/
def ensureSeq (n : YNode) : YNode :=
  if n.kind = .sequence then n else .mk .sequence n.tag n.value []

/-- The key search loop of findOrCreateMapKey: find the first pair whose key
equals the target and apply the caller's mutation to its value node, or
append a fresh scalar key and empty mapping value at the end.  (On the
unreachable odd trailing entry, where Go would index out of range, the
embedding appends.) -/
def focPairs (key : String) (f : YNode → YNode) : List YNode → List YNode
  | k :: v :: rest =>
    if k.value = key then k :: f v :: rest
    else k :: v :: focPairs key f rest
  | other => other ++ [scalarStr key, f emptyMapping]

/-- findOrCreateMapKey(mapNode, key): coerce the node to a mapping, then find
or create the value node for the key.  Go returns a pointer into the tree
which the caller then mutates; the embedding takes that subsequent mutation f
and applies it to the found-or-created value node in place. -/
def findOrCreateMapKeyWith (m : YNode) (key : String) (f : YNode → YNode) : YNode :=
  match m with
  | .mk kind tg vl content =>
    let c := if kind = .mapping then content else []
    .mk .mapping tg vl (focPairs key f c)

mutual

/-- addPathToSequence(seqNode, path) acting on the sequence's Content list. -/
def addPathToSequence (content : List YNode) (path : List String) : List YNode :=
  match path with
  | [] => content
  | name :: remaining =>
    if remaining.isEmpty then
      if content.any (fun item => item.kind = .scalar && item.value = name) then content
      else content ++ [scalarStr name]
    else
      match addSeqMapPass content name remaining with
      | some c2 => c2
      | none =>
        match addSeqScalarPass content name remaining with
        | some c2 => c2
        | none =>
          content ++ [.mk .mapping "" ""
            [scalarStr name, .mk .sequence "" "" (addPathToSequence [] remaining)]]
termination_by (path.length, sizeOf content + 1)

/-- First pass of addPathToSequence: look for an existing mapping item
holding the key and recurse into its value. -/
def addSeqMapPass (content : List YNode) (name : String) (remaining : List String) :
    Option (List YNode) :=
  match content with
  | [] => none
  | item :: rest =>
    match item with
    | .mk .mapping tg vl pairs =>
      match addMapPairScan pairs name remaining with
      | some pairs2 => some (.mk .mapping tg vl pairs2 :: rest)
      | none => (addSeqMapPass rest name remaining).map (item :: ·)
    | _ => (addSeqMapPass rest name remaining).map (item :: ·)
termination_by (remaining.length + 1, sizeOf content)

/-- The pair scan inside the first pass: first pair whose key matches gets
its value coerced to a sequence and extended. -/
def addMapPairScan (pairs : List YNode) (name : String) (remaining : List String) :
    Option (List YNode) :=
  match pairs with
  | k :: v :: rest =>
    if k.value = name then
      let v2 := ensureSeq v
      some (k :: setContent v2 (addPathToSequence v2.content remaining) :: rest)
    else (addMapPairScan rest name remaining).map (fun l => k :: v :: l)
  | _ => none
termination_by (remaining.length + 1, sizeOf pairs)

/-- Second pass of addPathToSequence: convert an existing scalar item with
the same name into a mapping item holding a fresh sub-sequence. -/
def addSeqScalarPass (content : List YNode) (name : String) (remaining : List String) :
    Option (List YNode) :=
  match content with
  | [] => none
  | item :: rest =>
    match item with
    | .mk .scalar _ vl _ =>
      if vl = name then
        some (.mk .mapping "" ""
          [scalarStr name, .mk .sequence "" "" (addPathToSequence [] remaining)] :: rest)
      else (addSeqScalarPass rest name remaining).map (item :: ·)
    | _ => (addSeqScalarPass rest name remaining).map (item :: ·)
termination_by (remaining.length + 1, sizeOf content)

end

/-- Chassis.Add.  Returns the updated document plus an optional error; on
error the document is returned unchanged, mirroring the Go early returns
that precede any node mutation. -/
def addC (doc : YNode) (path : String) : YNode × Option ChassisErr :=
  if validatePathOk path = false then (doc, some (.invalidPath path))
  else if existsPath doc path then (doc, some (.alreadyExists path))
  else
    let doc2 := if doc.content.isEmpty then YNode.mk .document "" "" [emptyMapping] else doc
    match doc2.content with
    | [] => (doc2, none)
    | root :: tailNodes =>
      let root2 :=
        match splitDot path with
        | [] => root
        | [p0] => findOrCreateMapKeyWith root p0 id
        | [p0, p1] =>
          findOrCreateMapKeyWith root p0 (fun rv => findOrCreateMapKeyWith rv p1 ensureSeq)
        | p0 :: p1 :: rest =>
          findOrCreateMapKeyWith root p0 (fun rv =>
            findOrCreateMapKeyWith rv p1 (fun lv =>
              let l := ensureSeq lv
              setContent l (addPathToSequence l.content rest)))
      (.mk doc2.kind doc2.tag doc2.value (root2 :: tailNodes), none)

/-! ### Remove

Embedding of Chassis.Remove and removePathFromSequence from
src/unnamed/part_011 (identical in internal/chassis/chassis.go).  The Go
code finally re-applies the removal to the auxiliary data mirror and can
only report its "failed to remove" error when that mirror is out of sync
with the node tree; the mirror is not modelled, so that return site is
omitted.  Every modelled error precedes any node mutation. -/

/-- The pair-removal loops of Chassis.Remove for one- and two-segment
paths: drop the first key/value pair whose key matches, then stop. -/
def removePairByKey (key : String) : List YNode → List YNode
  | k :: v :: rest =>
    if k.value = key then rest
    else k :: v :: removePairByKey key rest
  | other => other

/-- The pair-search loops of Chassis.Remove (and Add) that locate the first
pair with the given key and mutate its value node in place, leaving the
list unchanged when there is no match. -/
def updatePairValue (key : String) (f : YNode → YNode) : List YNode → List YNode
  | k :: v :: rest =>
    if k.value = key then k :: f v :: rest
    else k :: v :: updatePairValue key f rest
  | other => other

/-- The exact-match pair loop of removePathFromSequence inside a mapping
item: drop the first pair whose key matches, reporting whether one was
found. -/
def removeExactInMapItem (pairs : List YNode) (name : String) : Option (List YNode) :=
  match pairs with
  | k :: v :: rest =>
    if k.value = name then some rest
    else (removeExactInMapItem rest name).map (fun l => k :: v :: l)
  | _ => none

mutual

/-- removePathFromSequence(seqNode, path) acting on the sequence Content. -/
def removePathFromSequence (content : List YNode) (path : List String) :
    List YNode × Bool :=
  match path with
  | [] => (content, false)
  | name :: remaining => removeSeqItems content name remaining
termination_by (path.length, sizeOf content + 1)

/-- The item loop of removePathFromSequence.  With no segments left it
removes the exact node: a scalar item is dropped from the sequence; a
mapping item containing the key is dropped whole when that key is its only
pair (Go: len(item.Content) == 2) and otherwise loses just that pair.
With segments left it recurses into the first mapping item that holds the
key with a sequence value and returns that result immediately. -/
def removeSeqItems (content : List YNode) (name : String) (remaining : List String) :
    List YNode × Bool :=
  match content with
  | [] => ([], false)
  | item :: rest =>
    if remaining.isEmpty then
      match item with
      | .mk .scalar _ vl _ =>
        if vl = name then (rest, true)
        else
          let r := removeSeqItems rest name remaining
          (item :: r.1, r.2)
      | .mk .mapping tg vl pairs =>
        match removeExactInMapItem pairs name with
        | some newPairs =>
          if pairs.length = 2 then (rest, true)
          else (.mk .mapping tg vl newPairs :: rest, true)
        | none =>
          let r := removeSeqItems rest name remaining
          (item :: r.1, r.2)
      | _ =>
        let r := removeSeqItems rest name remaining
        (item :: r.1, r.2)
    else
      match item with
      | .mk .mapping tg vl pairs =>
        match removeRecursePairs pairs name remaining with
        | some r => (.mk .mapping tg vl r.1 :: rest, r.2)
        | none =>
          let r := removeSeqItems rest name remaining
          (item :: r.1, r.2)
      | _ =>
        let r := removeSeqItems rest name remaining
        (item :: r.1, r.2)
termination_by (remaining.length + 1, sizeOf content)

/-- The descent pair loop of removePathFromSequence: the first pair whose
key matches and whose value is a sequence receives the recursive removal;
its result is returned for the whole scan. -/
def removeRecursePairs (pairs : List YNode) (name : String) (remaining : List String) :
    Option (List YNode × Bool) :=
  match pairs with
  | k :: v :: rest =>
    if k.value = name && v.kind = .sequence then
      let r := removePathFromSequence v.content remaining
      some (k :: setContent v r.1 :: rest, r.2)
    else (removeRecursePairs rest name remaining).map (fun r => (k :: v :: r.1, r.2))
  | _ => none
termination_by (remaining.length + 1, sizeOf pairs)

end

/-- Chassis.Remove.  Returns the updated document plus an optional error;
all modelled errors precede any mutation and return the document
unchanged. -/
def removeC (doc : YNode) (path : String) : YNode × Option ChassisErr :=
  if path = "" then (doc, some .emptyPath)
  else if existsPath doc path = false then (doc, some (.notFound path))
  else
    match doc.content with
    | [] => (doc, none)
    | root :: tailNodes =>
      if root.kind = .mapping then
        let root2 :=
          match splitDot path with
          | [] => root
          | [p0] => setContent root (removePairByKey p0 root.content)
          | [p0, p1] =>
            setContent root (updatePairValue p0 (fun rv =>
              if rv.kind = .mapping then setContent rv (removePairByKey p1 rv.content)
              else rv) root.content)
          | p0 :: p1 :: rest =>
            setContent root (updatePairValue p0 (fun rv =>
              if rv.kind = .mapping then
                setContent rv (updatePairValue p1 (fun lv =>
                  if lv.kind = .sequence then
                    setContent lv (removePathFromSequence lv.content rest).1
                  else lv) rv.content)
              else rv) root.content)
        (.mk doc.kind doc.tag doc.value (root2 :: tailNodes), none)
      else (doc, none)

/-! ### Rename

Embedding of Chassis.Rename and renameInNode from src/unnamed/part_011 and
of the precondition checks of Rename.Execute from src/unnamed/part_005. -/

inductive RenameErr : Type where
  | notFound : String → RenameErr
  | alreadyExists : String → RenameErr
  | depthMismatch : RenameErr
  | ambiguous : RenameErr
  | identical : RenameErr
deriving DecidableEq, Repr

/-- The differing-segment scan of Chassis.Rename: at most one differing
position is allowed and at least one is required. -/
def diffScan (a b : List String) (idx : Nat) (found : Option Nat) :
    Except RenameErr Nat :=
  match a, b with
  | [], [] =>
    match found with
    | none => .error .identical
    | some i => .ok i
  | x :: xs, y :: ys =>
    if x ≠ y then
      match found with
      | some _ => .error .ambiguous
      | none => diffScan xs ys (idx + 1) (some idx)
    else diffScan xs ys (idx + 1) found
  | _, _ => .error .depthMismatch

mutual

/-- renameInNode(node, oldParts, newParts, diffIdx, depth). -/
def renameInNode (t : YNode) (oldP newP : List String) (i d : Nat) : YNode × Bool :=
  if d ≥ oldP.length then (t, false)
  else
    match t with
    | .mk .mapping tg vl c =>
      let r := renameMapPairs c oldP newP i d
      (.mk .mapping tg vl r.1, r.2)
    | .mk .sequence tg vl c =>
      let r := renameSeqItems c oldP newP i d
      (.mk .sequence tg vl r.1, r.2)
    | other => (other, false)
termination_by sizeOf t + 1

/-- The MappingNode case of renameInNode: the first pair whose key matches
the current target is renamed at the differing depth, or descended into
otherwise; its outcome is returned for the whole loop. -/
def renameMapPairs (pairs : List YNode) (oldP newP : List String) (i d : Nat) :
    List YNode × Bool :=
  match pairs with
  | k :: v :: rest =>
    if k.value = oldP.getD d "" then
      if d = i then (.mk k.kind k.tag (newP.getD d "") k.content :: v :: rest, true)
      else
        let r := renameInNode v oldP newP i (d + 1)
        (k :: r.1 :: rest, r.2)
    else
      let r := renameMapPairs rest oldP newP i d
      (k :: v :: r.1, r.2)
  | other => (other, false)
termination_by sizeOf pairs

/-- The SequenceNode case of renameInNode: a scalar item matching the
target is renamed only at the differing depth (otherwise the scan goes
on); a mapping item containing the target key is renamed or descended
into, returning that outcome for the whole loop. -/
def renameSeqItems (items : List YNode) (oldP newP : List String) (i d : Nat) :
    List YNode × Bool :=
  match items with
  | [] => ([], false)
  | item :: rest =>
    match item with
    | .mk .scalar tg vl c =>
      if vl = oldP.getD d "" && d = i then (.mk .scalar tg (newP.getD d "") c :: rest, true)
      else
        let r := renameSeqItems rest oldP newP i d
        (item :: r.1, r.2)
    | .mk .mapping tg vl pairs =>
      match renameItemPairs pairs oldP newP i d with
      | some r => (.mk .mapping tg vl r.1 :: rest, r.2)
      | none =>
        let r := renameSeqItems rest oldP newP i d
        (item :: r.1, r.2)
    | _ =>
      let r := renameSeqItems rest oldP newP i d
      (item :: r.1, r.2)
termination_by sizeOf items

/-- The pair loop inside a sequence mapping item: Go returns at the first
pair whose key matches the target, either renaming it or descending. -/
def renameItemPairs (pairs : List YNode) (oldP newP : List String) (i d : Nat) :
    Option (List YNode × Bool) :=
  match pairs with
  | k :: v :: rest =>
    if k.value = oldP.getD d "" then
      if d = i then some (.mk k.kind k.tag (newP.getD d "") k.content :: v :: rest, true)
      else
        let r := renameInNode v oldP newP i (d + 1)
        some (k :: r.1 :: rest, r.2)
    else (renameItemPairs rest oldP newP i d).map (fun r => (k :: v :: r.1, r.2))
  | _ => none
termination_by sizeOf pairs

end

/-- Chassis.Rename: depth check, single-diff scan, then the in-place
rename walk on the root node.  The found/not-found flag of the walk is
discarded by the Go code. -/
def chassisRename (doc : YNode) (oldPath newPath : String) : YNode × Option RenameErr :=
  let op := splitDot oldPath
  let np := splitDot newPath
  if op.length ≠ np.length then (doc, some .depthMismatch)
  else
    match diffScan op np 0 none with
    | .error e => (doc, some e)
    | .ok i =>
      match doc.content with
      | [] => (doc, none)
      | root :: tailNodes =>
        (.mk doc.kind doc.tag doc.value ((renameInNode root op np i 0).1 :: tailNodes), none)

/-- The document-level pipeline of Rename.Execute: both existence checks,
then Chassis.Rename.  Registry propagation is modelled separately. -/
def renameDoc (doc : YNode) (oldPath newPath : String) : YNode × Option RenameErr :=
  if existsPath doc oldPath = false then (doc, some (.notFound oldPath))
  else if existsPath doc newPath then (doc, some (.alreadyExists newPath))
  else chassisRename doc oldPath newPath

/-! ### Registry records

Playbook attachment records (src/unnamed/part_013, identical code at the
end of internal/chassis/chassis.go) and node allocation records.  File
system outcomes (directory listing, read, parse, marshal, write) are
modelled as boolean attributes of each record; a record file carries both
its parse as plays (used by LoadAttachments) and its parse as a yaml node
(used by UpdateAttachments), which in Go are two parses of the same
bytes. -/

/-- A playbook role entry: a bare string, a dict with a usable role field,
or anything else (skipped by the Go type switch). -/
inductive RoleEntry : Type where
  | plain : String → RoleEntry
  | withRoleField : String → RoleEntry
  | invalid : RoleEntry
deriving DecidableEq, Repr

/-- The roleName extraction of LoadAttachments: empty for unusable
entries. -/
def extractRoleName : RoleEntry → String
  | .plain s => s
  | .withRoleField s => s
  | .invalid => ""

structure Play : Type where
  hosts : String
  roles : List RoleEntry
deriving DecidableEq, Repr

structure PFile : Type where
  name : String
  entryIsDir : Bool
  readable : Bool
  parses : Bool
  marshals : Bool
  writable : Bool
  plays : List Play
  node : YNode

/-- The playbook path string built by the Go code:
filepath.Join(srcDir, name, name+".yaml") with srcDir = dir/src, for the
working directory as dir. -/
def pbPath (name : String) : String :=
  "src/" ++ name ++ "/" ++ name ++ ".yaml"

structure Attachment : Type where
  component : String
  playbook : String
  chassis : String
deriving DecidableEq, Repr

/-- LoadAttachments(dir, chassisPath): scan playbooks, keep plays whose
hosts selector equals the path or is a descendant of it, and emit one
attachment per usable role entry. -/
def loadAttachments (pfiles : List PFile) (sect : String) : List Attachment :=
  pfiles.flatMap (fun f =>
    if f.entryIsDir && f.readable && f.parses then
      f.plays.flatMap (fun play =>
        if play.hosts == sect || strStartsWith play.hosts (sect ++ ".") then
          play.roles.filterMap (fun r =>
            let nm := extractRoleName r
            if nm = "" then none else some ⟨nm, pbPath f.name, play.hosts⟩)
        else [])
    else [])

/-! ### Reference rewriting (rename propagation)

updateHostsInNode and updateChassisInNode from src/unnamed/part_013
(identical code in internal/chassis/chassis.go). -/

/-- Does a stored path value match the renamed section: equal to it or a
descendant of it. -/
def refMatches (oldS v : String) : Bool :=
  v == oldS || strStartsWith v (oldS ++ ".")

/-- The rewrite applied to a matching stored path value:
newSection, or newSection + value[len(oldSection):] for a descendant. -/
def rewriteRef (oldS newS v : String) : String :=
  if v = oldS then newS
  else if strStartsWith v (oldS ++ ".") then
    String.mk (newS.data ++ v.data.drop oldS.data.length)
  else v

mutual

/-- updateHostsInNode: rewrite every scalar value stored under a "hosts"
mapping key, reporting whether anything matched. -/
def updateHostsInNode (t : YNode) (oldS newS : String) : YNode × Bool :=
  match t with
  | .mk .document tg vl c =>
    let r := updateHostsList c oldS newS
    (.mk .document tg vl r.1, r.2)
  | .mk .sequence tg vl c =>
    let r := updateHostsList c oldS newS
    (.mk .sequence tg vl r.1, r.2)
  | .mk .mapping tg vl c =>
    let r := updateHostsPairs c oldS newS
    (.mk .mapping tg vl r.1, r.2)
  | other => (other, false)
termination_by 2 * sizeOf t

def updateHostsList (l : List YNode) (oldS newS : String) : List YNode × Bool :=
  match l with
  | [] => ([], false)
  | x :: xs =>
    let r1 := updateHostsInNode x oldS newS
    let r2 := updateHostsList xs oldS newS
    (r1.1 :: r2.1, r1.2 || r2.2)
termination_by 2 * sizeOf l + 1

def updateHostsPairs (pairs : List YNode) (oldS newS : String) : List YNode × Bool :=
  match pairs with
  | k :: v :: rest =>
    if k.value = "hosts" && v.kind = .scalar then
      let hit := refMatches oldS v.value
      let v2 := if hit then YNode.mk v.kind v.tag (rewriteRef oldS newS v.value) v.content else v
      let r := updateHostsPairs rest oldS newS
      (k :: v2 :: r.1, hit || r.2)
    else
      let r1 := updateHostsInNode v oldS newS
      let r := updateHostsPairs rest oldS newS
      (k :: r1.1 :: r.1, r1.2 || r.2)
  | other => (other, false)
termination_by 2 * sizeOf pairs + 1

end

/-- The chassis-array item loop of updateChassisInNode: rewrite matching
scalar entries of the chassis sequence. -/
def updateChassisItems (items : List YNode) (oldS newS : String) : List YNode × Bool :=
  match items with
  | [] => ([], false)
  | item :: rest =>
    let r := updateChassisItems rest oldS newS
    match item with
    | .mk .scalar tg vl c =>
      if refMatches oldS vl then
        (.mk .scalar tg (rewriteRef oldS newS vl) c :: r.1, true)
      else (item :: r.1, r.2)
    | _ => (item :: r.1, r.2)

mutual

/-- updateChassisInNode: rewrite every scalar entry of a sequence stored
under a "chassis" mapping key.  The Go switch has only document and
mapping cases, so children of sequence values are not traversed. -/
def updateChassisInNode (t : YNode) (oldS newS : String) : YNode × Bool :=
  match t with
  | .mk .document tg vl c =>
    let r := updateChassisList c oldS newS
    (.mk .document tg vl r.1, r.2)
  | .mk .mapping tg vl c =>
    let r := updateChassisPairs c oldS newS
    (.mk .mapping tg vl r.1, r.2)
  | other => (other, false)
termination_by 2 * sizeOf t

def updateChassisList (l : List YNode) (oldS newS : String) : List YNode × Bool :=
  match l with
  | [] => ([], false)
  | x :: xs =>
    let r1 := updateChassisInNode x oldS newS
    let r2 := updateChassisList xs oldS newS
    (r1.1 :: r2.1, r1.2 || r2.2)
termination_by 2 * sizeOf l + 1

def updateChassisPairs (pairs : List YNode) (oldS newS : String) : List YNode × Bool :=
  match pairs with
  | k :: v :: rest =>
    if k.value = "chassis" && v.kind = .sequence then
      let ri := updateChassisItems v.content oldS newS
      let r := updateChassisPairs rest oldS newS
      (k :: setContent v ri.1 :: r.1, ri.2 || r.2)
    else
      let r1 := updateChassisInNode v oldS newS
      let r := updateChassisPairs rest oldS newS
      (k :: r1.1 :: r.1, r1.2 || r.2)
  | other => (other, false)
termination_by 2 * sizeOf pairs + 1

end

/-! ### Registry scans (UpdateAttachments, UpdateAllocations)

The per-file processing of src/unnamed/part_013: a file that cannot be
read, parsed, re-marshalled or written is skipped (continue) and the scan
moves on; only files whose rewrite changed something are written back and
listed. -/

inductive DirState (α : Type) : Type where
  | missing : DirState α
  | errored : DirState α
  | ok : List α → DirState α

inductive RegErr : Type where
  | readDirFailed : RegErr
deriving DecidableEq, Repr

/-- One playbook file under UpdateAttachments. -/
def processPFile (f : PFile) (oldS newS : String) : PFile × Option String :=
  if f.entryIsDir && f.readable && f.parses then
    let r := updateHostsInNode f.node oldS newS
    if r.2 then
      if f.marshals && f.writable then ({f with node := r.1}, some (pbPath f.name))
      else (f, none)
    else (f, none)
  else (f, none)

/-- The playbook loop of UpdateAttachments. -/
def updateAttachmentsFiles (pfiles : List PFile) (oldS newS : String) :
    List PFile × List String :=
  match pfiles with
  | [] => ([], [])
  | f :: rest =>
    let p := processPFile f oldS newS
    let r := updateAttachmentsFiles rest oldS newS
    (p.1 :: r.1, (p.2.toList) ++ r.2)

/-- UpdateAttachments(dir, old, new): a missing src directory yields no
updates and no error; any other directory listing failure is the only
surfaced error. -/
def updateAttachmentsDir (d : DirState PFile) (oldS newS : String) :
    Except RegErr (DirState PFile × List String) :=
  match d with
  | .missing => .ok (.missing, [])
  | .errored => .error .readDirFailed
  | .ok files =>
    let r := updateAttachmentsFiles files oldS newS
    .ok (.ok r.1, r.2)

/-- One node allocation file (inst/platform/nodes/host.yaml). -/
structure NFile : Type where
  hostname : String
  entryIsDir : Bool
  isYaml : Bool
  readable : Bool
  parses : Bool
  marshals : Bool
  writable : Bool
  chassisList : List String
  node : YNode

/-- One platform directory under inst/. -/
structure Platform : Type where
  name : String
  entryIsDir : Bool
  nodesDirOk : Bool
  files : List NFile

/-- The node file path string built by the Go code. -/
def nfPath (platform host : String) : String :=
  "inst/" ++ platform ++ "/nodes/" ++ host ++ ".yaml"

/-- One node file under UpdateAllocations. -/
def processNFile (platform : String) (f : NFile) (oldS newS : String) :
    NFile × Option String :=
  if !f.entryIsDir && f.isYaml && f.readable && f.parses then
    let r := updateChassisInNode f.node oldS newS
    if r.2 then
      if f.marshals && f.writable then
        ({f with node := r.1}, some (nfPath platform f.hostname))
      else (f, none)
    else (f, none)
  else (f, none)

/-- The node file loop of UpdateAllocations within one platform. -/
def updateAllocationsNFiles (platform : String) (files : List NFile) (oldS newS : String) :
    List NFile × List String :=
  match files with
  | [] => ([], [])
  | f :: rest =>
    let p := processNFile platform f oldS newS
    let r := updateAllocationsNFiles platform rest oldS newS
    (p.1 :: r.1, p.2.toList ++ r.2)

/-- The platform loop of UpdateAllocations: non-directories and platforms
whose nodes directory cannot be listed are skipped. -/
def updateAllocationsPlatforms (ps : List Platform) (oldS newS : String) :
    List Platform × List String :=
  match ps with
  | [] => ([], [])
  | p :: rest =>
    let r := updateAllocationsPlatforms rest oldS newS
    if p.entryIsDir && p.nodesDirOk then
      let u := updateAllocationsNFiles p.name p.files oldS newS
      ({p with files := u.1} :: r.1, u.2 ++ r.2)
    else (p :: r.1, r.2)

/-- UpdateAllocations(dir, old, new). -/
def updateAllocationsDir (d : DirState Platform) (oldS newS : String) :
    Except RegErr (DirState Platform × List String) :=
  match d with
  | .missing => .ok (.missing, [])
  | .errored => .error .readDirFailed
  | .ok ps =>
    let r := updateAllocationsPlatforms ps oldS newS
    .ok (.ok r.1, r.2)

/-! ### The remove action

Remove.Execute from src/actions/remove/remove.go. -/

/-- Modelled from the spec: the node allocation collaborator
(plasmactl-node's LoadByPlatform and Nodes.Allocations, external to this
repository) exposes, per platform, allocated nodes each carrying a display
identifier (host and platform instance names) and the set of effective
chassis paths produced by effective distribution.  The loaded result is
taken as input data. -/
structure AllocNode : Type where
  display : String
  effective : List String
deriving DecidableEq, Repr

/-- The blocking-allocation loop of Remove.Execute: a node whose effective
paths contain the removed path or a descendant of it, listed by display
name (first matching path stops the inner loop). -/
def allocatedNodesFor (platforms : List (List AllocNode)) (P : String) : List String :=
  platforms.flatMap (fun ns =>
    (ns.filter (fun nd =>
      nd.effective.any (fun cp => cp == P || strStartsWith cp (P ++ ".")))).map
      (fun nd => nd.display))

structure RemoveState : Type where
  doc : YNode
  allocPlatforms : List (List AllocNode)
  pfiles : List PFile

structure RemoveResult : Type where
  chassis : String
  dryRun : Bool
  allocatedNodes : List String
  attachedComponents : List String
deriving DecidableEq, Repr

inductive RemoveErr : Type where
  | notFound : String → RemoveErr
  | nodesAllocated : List String → RemoveErr
  | componentsAttached : List String → RemoveErr
  | removeFailed : ChassisErr → RemoveErr
deriving DecidableEq, Repr

/-- Which allocation set an error value reports (carries verbatim). -/
def reportsAllocatedSet : RemoveErr → List String → Bool
  | .nodesAllocated ns, l => ns == l
  | _, _ => false

/-- Which attachment set an error value reports (carries verbatim). -/
def reportsAttachedSet : RemoveErr → List String → Bool
  | .componentsAttached cs, l => cs == l
  | _, _ => false

/-- Remove.Execute: existence check, blocker computation, dry-run report,
blocker errors (allocations first), then document removal and save. -/
def removeExecute (st : RemoveState) (P : String) (dry : Bool) :
    RemoveState × Except RemoveErr RemoveResult :=
  if existsPath st.doc P = false then (st, .error (.notFound P))
  else
    let allocated := allocatedNodesFor st.allocPlatforms P
    let attached := (loadAttachments st.pfiles P).map (fun a => a.component)
    if dry then (st, .ok ⟨P, true, allocated, attached⟩)
    else if allocated.isEmpty = false then (st, .error (.nodesAllocated allocated))
    else if attached.isEmpty = false then (st, .error (.componentsAttached attached))
    else
      let r := removeC st.doc P
      match r.2 with
      | some e => (st, .error (.removeFailed e))
      | none => ({st with doc := r.1}, .ok ⟨P, false, [], []⟩)

/-! ### The rename action

Rename.Execute and Rename.executeDryRun from src/unnamed/part_005, over
the document plus both registry directories. -/

/-- A parsed node allocation record, as loaded by LoadNodesByPlatform. -/
structure PNode : Type where
  hostname : String
  chassisList : List String
deriving DecidableEq, Repr

/-- loadNodesFromPlatform: parse the node files of one platform, skipping
unreadable or unparsable files. -/
def parsePlatformNodes (pf : Platform) : List PNode :=
  if pf.entryIsDir && pf.nodesDirOk then
    pf.files.filterMap (fun f =>
      if !f.entryIsDir && f.isYaml && f.readable && f.parses then
        some ⟨f.hostname, f.chassisList⟩
      else none)
  else []

/-- LoadNodesByPlatform: group parsed nodes by platform, keeping only
platforms with at least one node. -/
def loadNodesByPlatform (ps : List Platform) : List (String × List PNode) :=
  ps.filterMap (fun pf =>
    let ns := parsePlatformNodes pf
    if ns.isEmpty then none else some (pf.name, ns))

/-- NodesForChassis: nodes allocated to the path or one of its
descendants. -/
def nodesForChassis (ns : List PNode) (P : String) : List PNode :=
  ns.filter (fun n => n.chassisList.any (fun c => c == P || strStartsWith c (P ++ ".")))

/-- The seen-map deduplication of executeDryRun: keep the first occurrence
of each playbook path. -/
def dedupFirstAux (seen : List String) : List String → List String
  | [] => []
  | x :: xs =>
    if seen.contains x then dedupFirstAux seen xs
    else x :: dedupFirstAux (x :: seen) xs

def dedupFirst (l : List String) : List String := dedupFirstAux [] l

/-- Registry reads tolerate a missing or unlistable directory (the caller
logs and continues with no records). -/
def pfilesOf : DirState PFile → List PFile
  | .ok l => l
  | _ => []

def platformsOf : DirState Platform → List Platform
  | .ok l => l
  | _ => []

structure RenameState : Type where
  doc : YNode
  pdir : DirState PFile
  ndir : DirState Platform

structure RenameResult : Type where
  old : String
  new : String
  dryRun : Bool
  updatedAttachments : List String
  updatedAllocations : List String
deriving DecidableEq, Repr

/-- Rename.executeDryRun: report the playbooks and node files that would
be touched, without modifying anything. -/
def renameDryRunResult (st : RenameState) (o n : String) : RenameResult :=
  let atts := loadAttachments (pfilesOf st.pdir) o
  let affectedPlaybooks := dedupFirst (atts.map (fun a => a.playbook))
  let affectedNodeFiles :=
    (loadNodesByPlatform (platformsOf st.ndir)).flatMap (fun pr =>
      (nodesForChassis pr.2 o).map (fun nd => nfPath pr.1 nd.hostname))
  ⟨o, n, true, affectedPlaybooks, affectedNodeFiles⟩

/-- Rename.Execute: existence checks, dry-run branch, document rename and
save, then registry propagation whose directory-level failure is
downgraded to a warning (the renamed document stands). -/
def renameExecute (st : RenameState) (o n : String) (dry : Bool) :
    RenameState × Except RenameErr RenameResult :=
  if existsPath st.doc o = false then (st, .error (.notFound o))
  else if existsPath st.doc n then (st, .error (.alreadyExists n))
  else if dry then (st, .ok (renameDryRunResult st o n))
  else
    let r := chassisRename st.doc o n
    match r.2 with
    | some e => (st, .error e)
    | none =>
      let pa :=
        match updateAttachmentsDir st.pdir o n with
        | .ok x => x
        | .error _ => (st.pdir, [])
      let na :=
        match updateAllocationsDir st.ndir o n with
        | .ok x => x
        | .error _ => (st.ndir, [])
      (⟨r.1, pa.1, na.1⟩, .ok ⟨o, n, false, pa.2, na.2⟩)

/-! ### splitPath (src/unnamed/part_007)

The list command's path splitter builds each segment character by
character, flushing on dots and dropping empty segments. -/

/-- The character loop of splitPath with its current-segment
accumulator. -/
def splitPathAux : List Char → List Char → List String
  | [], cur => if cur.isEmpty then [] else [String.mk cur]
  | c :: cs, cur =>
    if c = '.' then
      if cur.isEmpty then splitPathAux cs []
      else String.mk cur :: splitPathAux cs []
    else splitPathAux cs (cur ++ [c])

/-- splitPath(path) from src/unnamed/part_007. -/
def splitPath (s : String) : List String :=
  splitPathAux s.data []

theorem dropWhileLenLe (p : Char → Bool) (l : List Char) :
    (l.dropWhile p).length ≤ l.length := by
  induction l with
  | nil => simp [List.dropWhile]
  | cons a l ih =>
    by_cases h : p a = true
    · simp only [List.dropWhile, h, List.length_cons]
      omega
    · simp only [List.dropWhile, h, List.length_cons]
      omega

/-- Follows the words of the claim: the maximal non-empty runs of non-dot
characters of a character list, in order. -/
def dotRuns : List Char → List (List Char)
  | [] => []
  | c :: cs =>
    if c = '.' then dotRuns cs
    else (c :: cs.takeWhile (fun x => x ≠ '.')) :: dotRuns (cs.dropWhile (fun x => x ≠ '.'))
termination_by l => l.length
decreasing_by
  · simp
  · have h := dropWhileLenLe (fun x => x ≠ '.') cs
    simp only [List.length_cons]
    omega

/-- The spec-side splitter: maximal non-empty runs of non-dot characters,
as strings. -/
def splitPathSpec (s : String) : List String :=
  (dotRuns s.data).map String.mk

/-! ### Occurrence of a name in a tree

Used to state the amended rename round-trip property: what can break the
round trip is a pre-existing occurrence of the new segment name. -/

mutual

/-- Does any node in the tree carry the given Value. -/
def occursName (q : String) (t : YNode) : Bool :=
  match t with
  | .mk _ _ vl c => vl == q || occursNameL q c
termination_by 2 * sizeOf t

def occursNameL (q : String) : List YNode → Bool
  | [] => false
  | x :: xs => occursName q x || occursNameL q xs
termination_by l => 2 * sizeOf l + 1

end

/-- Does a mapping Content list contain a pair whose key has this value. -/
def pairsHaveKey (name : String) : List YNode → Bool
  | k :: _ :: rest => k.value == name || pairsHaveKey name rest
  | _ => false

theorem occursName_mk_false {q : String} {kd : YKind} {tg vl : String} {c : List YNode}
    (h : occursName q (.mk kd tg vl c) = false) :
    vl ≠ q ∧ occursNameL q c = false := by
  unfold occursName at h
  simp only [Bool.or_eq_false_iff, beq_eq_false_iff_ne] at h
  exact h

theorem occursNameL_cons_false {q : String} {x : YNode} {xs : List YNode}
    (h : occursNameL q (x :: xs) = false) :
    occursName q x = false ∧ occursNameL q xs = false := by
  unfold occursNameL at h
  simp only [Bool.or_eq_false_iff] at h
  exact h

theorem value_ne_of_occursName_false {q : String} {t : YNode}
    (h : occursName q t = false) : t.value ≠ q := by
  cases t with
  | mk kd tg vl c => exact (occursName_mk_false h).1

theorem pairsHaveKey_false_of_occurs :
    ∀ (q : String) (pairs : List YNode),
      occursNameL q pairs = false → pairsHaveKey q pairs = false
  | _, [], _ => rfl
  | _, [_], _ => rfl
  | q, k :: v :: rest, h => by
    have h1 := occursNameL_cons_false h
    have h2 := occursNameL_cons_false h1.2
    unfold pairsHaveKey
    simp only [Bool.or_eq_false_iff, beq_eq_false_iff_ne]
    exact ⟨value_ne_of_occursName_false h1.1, pairsHaveKey_false_of_occurs q rest h2.2⟩

theorem renameItemPairs_none_iff :
    ∀ (pairs : List YNode) (oldP newP : List String) (i d : Nat),
      renameItemPairs pairs oldP newP i d = none ↔
        pairsHaveKey (oldP.getD d "") pairs = false
  | [], _, _, _, _ => by simp [renameItemPairs, pairsHaveKey]
  | [k], _, _, _, _ => by simp [renameItemPairs, pairsHaveKey]
  | k :: v :: rest, oldP, newP, i, d => by
    unfold renameItemPairs pairsHaveKey
    by_cases hk : k.value = oldP.getD d ""
    · simp only [if_pos hk, hk, beq_self_eq_true, Bool.true_or]
      by_cases hdi : d = i <;> simp [hdi]
    · rw [if_neg hk]
      cases hrec : renameItemPairs rest oldP newP i d with
      | none =>
        have hf := (renameItemPairs_none_iff rest oldP newP i d).mp hrec
        simp only [List.getD, List.get?_eq_getElem?] at hf hk ⊢
        simp [hf, hk]
      | some r =>
        have ht : pairsHaveKey (oldP.getD d "") rest = true := by
          cases hb : pairsHaveKey (oldP.getD d "") rest with
          | false =>
            have := (renameItemPairs_none_iff rest oldP newP i d).mpr hb
            rw [hrec] at this
            cases this
          | true => rfl
        simp only [List.getD, List.get?_eq_getElem?] at ht hk ⊢
        simp [hrec, hk, ht]

/-! ### Properties of the differing-segment scan -/

/-- Number of differing positions between two segment lists. -/
def diffCount : List String → List String → Nat
  | x :: xs, y :: ys => (if x = y then 0 else 1) + diffCount xs ys
  | _, _ => 0

theorem ds_some_ok : ∀ (a b : List String) (idx i0 i : Nat),
    diffScan a b idx (some i0) = .ok i → i = i0
  | [], [], idx, i0, i, h => by
    unfold diffScan at h
    exact (Except.ok.inj h).symm
  | [], _ :: _, _, _, _, h => by unfold diffScan at h; cases h
  | _ :: _, [], _, _, _, h => by unfold diffScan at h; cases h
  | x :: xs, y :: ys, idx, i0, i, h => by
    unfold diffScan at h
    by_cases hxy : x ≠ y
    · rw [if_pos hxy] at h; cases h
    · rw [if_neg hxy] at h
      exact ds_some_ok xs ys (idx + 1) i0 i h

theorem ds_ok_len : ∀ (a b : List String) (idx : Nat) (found : Option Nat) (i : Nat),
    diffScan a b idx found = .ok i → a.length = b.length
  | [], [], _, _, _, _ => rfl
  | [], _ :: _, _, _, _, h => by unfold diffScan at h; cases h
  | _ :: _, [], _, _, _, h => by unfold diffScan at h; cases h
  | x :: xs, y :: ys, idx, found, i, h => by
    unfold diffScan at h
    simp only [List.length_cons]
    by_cases hxy : x ≠ y
    · rw [if_pos hxy] at h
      cases found with
      | some i0 => cases h
      | none => exact congrArg Nat.succ (ds_ok_len xs ys (idx + 1) (some idx) i h)
    · rw [if_neg hxy] at h
      exact congrArg Nat.succ (ds_ok_len xs ys (idx + 1) found i h)

theorem ds_agree_some : ∀ (a b : List String) (idx i0 i : Nat),
    diffScan a b idx (some i0) = .ok i → ∀ j, a.getD j "" = b.getD j ""
  | [], [], _, _, _, _, _ => rfl
  | [], _ :: _, _, _, _, h, _ => by unfold diffScan at h; cases h
  | _ :: _, [], _, _, _, h, _ => by unfold diffScan at h; cases h
  | x :: xs, y :: ys, idx, i0, i, h, j => by
    unfold diffScan at h
    by_cases hxy : x ≠ y
    · rw [if_pos hxy] at h; cases h
    · rw [if_neg hxy] at h
      cases j with
      | zero => simpa using not_not.mp hxy
      | succ j =>
        simpa using ds_agree_some xs ys (idx + 1) i0 i h j

theorem ds_agree : ∀ (a b : List String) (idx i : Nat),
    diffScan a b idx none = .ok i → ∀ j, idx + j ≠ i → a.getD j "" = b.getD j ""
  | [], [], _, _, h, _, _ => by unfold diffScan at h; cases h
  | [], _ :: _, _, _, h, _, _ => by unfold diffScan at h; cases h
  | _ :: _, [], _, _, h, _, _ => by unfold diffScan at h; cases h
  | x :: xs, y :: ys, idx, i, h, j, hj => by
    unfold diffScan at h
    by_cases hxy : x ≠ y
    · rw [if_pos hxy] at h
      have hi : i = idx := ds_some_ok xs ys (idx + 1) idx i h
      cases j with
      | zero => exact absurd (by omega : idx + 0 = i) hj
      | succ j => simpa using ds_agree_some xs ys (idx + 1) idx i h j
    · rw [if_neg hxy] at h
      cases j with
      | zero => simpa using not_not.mp hxy
      | succ j =>
        have := ds_agree xs ys (idx + 1) i h j (by omega)
        simpa using this

theorem ds_symm : ∀ (a b : List String) (idx : Nat) (found : Option Nat) (i : Nat),
    diffScan a b idx found = .ok i → diffScan b a idx found = .ok i
  | [], [], idx, found, i, h => by
    unfold diffScan at h ⊢
    exact h
  | [], _ :: _, _, _, _, h => by unfold diffScan at h; cases h
  | _ :: _, [], _, _, _, h => by unfold diffScan at h; cases h
  | x :: xs, y :: ys, idx, found, i, h => by
    unfold diffScan at h ⊢
    by_cases hxy : x ≠ y
    · rw [if_pos hxy] at h
      rw [if_pos (Ne.symm hxy)]
      cases found with
      | some i0 => cases h
      | none => exact ds_symm xs ys (idx + 1) (some idx) i h
    · have hyx : ¬ y ≠ x := fun hc => hxy (Ne.symm hc)
      rw [if_neg hxy] at h
      rw [if_neg hyx]
      exact ds_symm xs ys (idx + 1) found i h

theorem ds_identical : ∀ (a b : List String) (idx : Nat) (found : Option Nat),
    diffScan a b idx found = .error .identical → a = b ∧ found = none
  | [], [], idx, found, h => by
    unfold diffScan at h
    cases found with
    | none => exact ⟨rfl, rfl⟩
    | some i0 => cases h
  | [], _ :: _, _, _, h => by unfold diffScan at h; cases h
  | _ :: _, [], _, _, h => by unfold diffScan at h; cases h
  | x :: xs, y :: ys, idx, found, h => by
    unfold diffScan at h
    by_cases hxy : x ≠ y
    · rw [if_pos hxy] at h
      cases found with
      | some i0 => cases h
      | none =>
        have := (ds_identical xs ys (idx + 1) (some idx) h).2
        cases this
    · rw [if_neg hxy] at h
      have := ds_identical xs ys (idx + 1) found h
      exact ⟨by rw [not_not.mp hxy, this.1], this.2⟩

theorem ds_ambiguous : ∀ (a b : List String) (idx : Nat) (found : Option Nat),
    a.length = b.length →
    2 ≤ diffCount a b + (match found with | some _ => 1 | none => 0) →
    diffScan a b idx found = .error .ambiguous
  | [], [], _, found, _, h2 => by
    unfold diffCount at h2
    cases found <;> simp at h2
  | [], _ :: _, _, _, hl, _ => by cases hl
  | _ :: _, [], _, _, hl, _ => by cases hl
  | x :: xs, y :: ys, idx, found, hl, h2 => by
    unfold diffScan
    simp only [List.length_cons, Nat.succ_inj] at hl
    by_cases hxy : x ≠ y
    · rw [if_pos hxy]
      cases found with
      | some i0 => rfl
      | none =>
        apply ds_ambiguous xs ys (idx + 1) (some idx) hl
        unfold diffCount at h2
        rw [if_neg (by exact hxy)] at h2
        have h3 : 2 ≤ 1 + diffCount xs ys + 0 := h2
        show 2 ≤ diffCount xs ys + 1
        omega
    · rw [if_neg hxy]
      apply ds_ambiguous xs ys (idx + 1) found hl
      unfold diffCount at h2
      rw [if_pos (not_not.mp hxy)] at h2
      omega

/-! ### The rename walk round trip

Equation-shape lemmas for renameInNode, then the round-trip theorem used
by the amended form of the rename/rename-back property. -/

theorem rin_guard {t : YNode} {oldP newP : List String} {i d : Nat}
    (hd : d ≥ oldP.length) :
    renameInNode t oldP newP i d = (t, false) := by
  unfold renameInNode
  rw [if_pos hd]

theorem rin_mapping {tg vl : String} {c : List YNode} {oldP newP : List String}
    {i d : Nat} (hd : ¬ d ≥ oldP.length) :
    renameInNode (.mk .mapping tg vl c) oldP newP i d =
      (.mk .mapping tg vl (renameMapPairs c oldP newP i d).1,
        (renameMapPairs c oldP newP i d).2) := by
  unfold renameInNode
  rw [if_neg hd]

theorem rin_sequence {tg vl : String} {c : List YNode} {oldP newP : List String}
    {i d : Nat} (hd : ¬ d ≥ oldP.length) :
    renameInNode (.mk .sequence tg vl c) oldP newP i d =
      (.mk .sequence tg vl (renameSeqItems c oldP newP i d).1,
        (renameSeqItems c oldP newP i d).2) := by
  unfold renameInNode
  rw [if_neg hd]

theorem rin_scalar {tg vl : String} {c : List YNode} {oldP newP : List String}
    {i d : Nat} (hd : ¬ d ≥ oldP.length) :
    renameInNode (.mk .scalar tg vl c) oldP newP i d =
      (.mk .scalar tg vl c, false) := by
  unfold renameInNode
  rw [if_neg hd]

theorem rin_document {tg vl : String} {c : List YNode} {oldP newP : List String}
    {i d : Nat} (hd : ¬ d ≥ oldP.length) :
    renameInNode (.mk .document tg vl c) oldP newP i d =
      (.mk .document tg vl c, false) := by
  unfold renameInNode
  rw [if_neg hd]


theorem rsi_nil_eq (op np : List String) (i d : Nat) :
    renameSeqItems [] op np i d = ([], false) := by
  conv_lhs => rw [renameSeqItems]

theorem rsi_scalar_eq (op np : List String) (i d : Nat) (tg vl : String)
    (c rest : List YNode) :
    renameSeqItems (.mk .scalar tg vl c :: rest) op np i d =
      if vl = op.getD d "" && d = i then
        (.mk .scalar tg (np.getD d "") c :: rest, true)
      else
        (YNode.mk .scalar tg vl c :: (renameSeqItems rest op np i d).1,
          (renameSeqItems rest op np i d).2) := by
  conv_lhs => rw [renameSeqItems]

theorem rsi_mapping_eq (op np : List String) (i d : Nat) (tg vl : String)
    (c rest : List YNode) :
    renameSeqItems (.mk .mapping tg vl c :: rest) op np i d =
      (match renameItemPairs c op np i d with
       | some r => (YNode.mk .mapping tg vl r.1 :: rest, r.2)
       | none =>
         (YNode.mk .mapping tg vl c :: (renameSeqItems rest op np i d).1,
           (renameSeqItems rest op np i d).2)) := by
  conv_lhs => rw [renameSeqItems]

theorem rsi_sequence_eq (op np : List String) (i d : Nat) (tg vl : String)
    (c rest : List YNode) :
    renameSeqItems (.mk .sequence tg vl c :: rest) op np i d =
      (YNode.mk .sequence tg vl c :: (renameSeqItems rest op np i d).1,
        (renameSeqItems rest op np i d).2) := by
  simp only [renameSeqItems]

theorem rsi_document_eq (op np : List String) (i d : Nat) (tg vl : String)
    (c rest : List YNode) :
    renameSeqItems (.mk .document tg vl c :: rest) op np i d =
      (YNode.mk .document tg vl c :: (renameSeqItems rest op np i d).1,
        (renameSeqItems rest op np i d).2) := by
  simp only [renameSeqItems]

mutual

theorem rtNode (op np : List String) (i : Nat)
    (hlen : op.length = np.length)
    (hagree : ∀ d', d' ≠ i → op.getD d' "" = np.getD d' "")
    (t t' : YNode) (d : Nat)
    (hocc : occursName (np.getD i "") t = false)
    (hfwd : renameInNode t op np i d = (t', true)) :
    renameInNode t' np op i d = (t, true) := by
  by_cases hd : d ≥ op.length
  · rw [rin_guard hd] at hfwd
    cases hfwd
  · have hd2 : ¬ d ≥ np.length := by omega
    cases t with
    | mk kd tg vl c =>
      have hoccc : occursNameL (np.getD i "") c = false := (occursName_mk_false hocc).2
      cases kd with
      | mapping =>
        rw [rin_mapping hd] at hfwd
        rcases hr : renameMapPairs c op np i d with ⟨c2, b⟩
        rw [hr] at hfwd
        injection hfwd with h1 h2
        subst h2
        subst h1
        have ih := rtPairs op np i hlen hagree c c2 d hoccc hr
        rw [rin_mapping hd2, ih]
      | sequence =>
        rw [rin_sequence hd] at hfwd
        rcases hr : renameSeqItems c op np i d with ⟨c2, b⟩
        rw [hr] at hfwd
        injection hfwd with h1 h2
        subst h2
        subst h1
        have ih := rtItems op np i hlen hagree c c2 d hoccc hr
        rw [rin_sequence hd2, ih]
      | scalar =>
        rw [rin_scalar hd] at hfwd
        cases hfwd
      | document =>
        rw [rin_document hd] at hfwd
        cases hfwd
termination_by sizeOf t

theorem rtPairs (op np : List String) (i : Nat)
    (hlen : op.length = np.length)
    (hagree : ∀ d', d' ≠ i → op.getD d' "" = np.getD d' "")
    (pairs pairs' : List YNode) (d : Nat)
    (hocc : occursNameL (np.getD i "") pairs = false)
    (hfwd : renameMapPairs pairs op np i d = (pairs', true)) :
    renameMapPairs pairs' np op i d = (pairs, true) := by
  match pairs with
  | [] =>
    unfold renameMapPairs at hfwd
    cases hfwd
  | [k] =>
    unfold renameMapPairs at hfwd
    cases hfwd
  | k :: v :: rest =>
    have hocck := occursNameL_cons_false hocc
    have hoccv := occursNameL_cons_false hocck.2
    unfold renameMapPairs at hfwd
    by_cases hk : k.value = op.getD d ""
    · rw [if_pos hk] at hfwd
      by_cases hdi : d = i
      · rw [if_pos hdi] at hfwd
        injection hfwd with h1 h2
        subst h1
        unfold renameMapPairs
        have hkval : (YNode.mk k.kind k.tag (np.getD d "") k.content).value
            = np.getD d "" := rfl
        rw [if_pos hkval, if_pos hdi]
        cases k with
        | mk kk kt kv kc =>
          simp only [YNode.kind, YNode.tag, YNode.content, YNode.value] at hk ⊢
          rw [hk, hdi]
      · rw [if_neg hdi] at hfwd
        rcases hrv : renameInNode v op np i (d + 1) with ⟨v2, b⟩
        rw [hrv] at hfwd
        injection hfwd with h1 h2
        subst h2
        subst h1
        have ih := rtNode op np i hlen hagree v v2 (d + 1) hoccv.1 hrv
        unfold renameMapPairs
        have hkval : k.value = np.getD d "" := by
          rw [← hagree d hdi]; exact hk
        rw [if_pos hkval, if_neg hdi, ih]
    · rw [if_neg hk] at hfwd
      rcases hrr : renameMapPairs rest op np i d with ⟨rest2, b⟩
      rw [hrr] at hfwd
      injection hfwd with h1 h2
      subst h2
      subst h1
      have ih := rtPairs op np i hlen hagree rest rest2 d hoccv.2 hrr
      unfold renameMapPairs
      have hkval : ¬ k.value = np.getD d "" := by
        by_cases hdi : d = i
        · rw [hdi]
          exact value_ne_of_occursName_false hocck.1
        · rw [← hagree d hdi]; exact hk
      rw [if_neg hkval, ih]
termination_by sizeOf pairs

theorem rtItems (op np : List String) (i : Nat)
    (hlen : op.length = np.length)
    (hagree : ∀ d', d' ≠ i → op.getD d' "" = np.getD d' "")
    (items items' : List YNode) (d : Nat)
    (hocc : occursNameL (np.getD i "") items = false)
    (hfwd : renameSeqItems items op np i d = (items', true)) :
    renameSeqItems items' np op i d = (items, true) := by
  match items with
  | [] =>
    rw [rsi_nil_eq] at hfwd
    cases hfwd
  | item :: rest =>
    have hocc1 := occursNameL_cons_false hocc
    cases item with
    | mk kd tg vl c =>
      have hoccv := occursName_mk_false hocc1.1
      cases kd with
      | scalar =>
        rw [rsi_scalar_eq] at hfwd
        by_cases hcond : vl = op.getD d "" ∧ d = i
        · rw [if_pos (by simp [hcond.1, hcond.2])] at hfwd
          injection hfwd with h1 h2
          subst h1
          rw [rsi_scalar_eq]
          rw [if_pos (by simp [hcond.2])]
          rw [hcond.1, hcond.2]
        · rw [if_neg (by simpa using hcond)] at hfwd
          rcases hrr : renameSeqItems rest op np i d with ⟨rest2, b⟩
          rw [hrr] at hfwd
          injection hfwd with h1 h2
          subst h2
          subst h1
          have ih := rtItems op np i hlen hagree rest rest2 d hocc1.2 hrr
          rw [rsi_scalar_eq]
          have hcond2 : ¬ (vl = np.getD d "" ∧ d = i) := by
            rintro ⟨hv, hdi⟩
            rw [hdi] at hv
            exact hoccv.1 hv
          rw [if_neg (by simpa using hcond2), ih]
      | mapping =>
        rw [rsi_mapping_eq] at hfwd
        cases hip : renameItemPairs c op np i d with
        | some r =>
          rw [hip] at hfwd
          rcases r with ⟨c2, b⟩
          injection hfwd with h1 h2
          subst h2
          subst h1
          have ih := rtItemPairs op np i hlen hagree c c2 d hoccv.2 hip
          rw [rsi_mapping_eq, ih]
        | none =>
          rw [hip] at hfwd
          rcases hrr : renameSeqItems rest op np i d with ⟨rest2, b⟩
          rw [hrr] at hfwd
          injection hfwd with h1 h2
          subst h2
          subst h1
          have ih := rtItems op np i hlen hagree rest rest2 d hocc1.2 hrr
          have hip2 : renameItemPairs c np op i d = none := by
            rw [renameItemPairs_none_iff]
            by_cases hdi : d = i
            · rw [hdi]
              exact pairsHaveKey_false_of_occurs _ c hoccv.2
            · rw [← hagree d hdi]
              exact (renameItemPairs_none_iff c op np i d).mp hip
          rw [rsi_mapping_eq, hip2, ih]
      | sequence =>
        rw [rsi_sequence_eq] at hfwd
        rcases hrr : renameSeqItems rest op np i d with ⟨rest2, b⟩
        rw [hrr] at hfwd
        injection hfwd with h1 h2
        subst h2
        subst h1
        have ih := rtItems op np i hlen hagree rest rest2 d hocc1.2 hrr
        rw [rsi_sequence_eq, ih]
      | document =>
        rw [rsi_document_eq] at hfwd
        rcases hrr : renameSeqItems rest op np i d with ⟨rest2, b⟩
        rw [hrr] at hfwd
        injection hfwd with h1 h2
        subst h2
        subst h1
        have ih := rtItems op np i hlen hagree rest rest2 d hocc1.2 hrr
        rw [rsi_document_eq, ih]
termination_by sizeOf items

theorem rtItemPairs (op np : List String) (i : Nat)
    (hlen : op.length = np.length)
    (hagree : ∀ d', d' ≠ i → op.getD d' "" = np.getD d' "")
    (pairs pairs' : List YNode) (d : Nat)
    (hocc : occursNameL (np.getD i "") pairs = false)
    (hfwd : renameItemPairs pairs op np i d = some (pairs', true)) :
    renameItemPairs pairs' np op i d = some (pairs, true) := by
  match pairs with
  | [] =>
    unfold renameItemPairs at hfwd
    cases hfwd
  | [k] =>
    unfold renameItemPairs at hfwd
    cases hfwd
  | k :: v :: rest =>
    have hocck := occursNameL_cons_false hocc
    have hoccv := occursNameL_cons_false hocck.2
    unfold renameItemPairs at hfwd
    by_cases hk : k.value = op.getD d ""
    · rw [if_pos hk] at hfwd
      by_cases hdi : d = i
      · rw [if_pos hdi] at hfwd
        injection hfwd with h1
        injection h1 with h1a h1b
        subst h1a
        unfold renameItemPairs
        have hkval : (YNode.mk k.kind k.tag (np.getD d "") k.content).value
            = np.getD d "" := rfl
        rw [if_pos hkval, if_pos hdi]
        cases k with
        | mk kk kt kv kc =>
          simp only [YNode.kind, YNode.tag, YNode.content, YNode.value] at hk ⊢
          rw [hk, hdi]
      · rw [if_neg hdi] at hfwd
        rcases hrv : renameInNode v op np i (d + 1) with ⟨v2, b⟩
        rw [hrv] at hfwd
        injection hfwd with h1
        injection h1 with h1a h1b
        subst h1b
        subst h1a
        have ih := rtNode op np i hlen hagree v v2 (d + 1) hoccv.1 hrv
        unfold renameItemPairs
        have hkval : k.value = np.getD d "" := by
          rw [← hagree d hdi]; exact hk
        rw [if_pos hkval, if_neg hdi, ih]
    · rw [if_neg hk] at hfwd
      cases hrr : renameItemPairs rest op np i d with
      | none =>
        rw [hrr] at hfwd
        cases hfwd
      | some r =>
        rw [hrr] at hfwd
        rcases r with ⟨rest2, b⟩
        have hfwd2 : some ((k :: v :: rest2, b) : List YNode × Bool)
            = some ((pairs', true) : List YNode × Bool) := hfwd
        injection hfwd2 with h1
        injection h1 with h1a h1b
        subst h1b
        subst h1a
        have ih := rtItemPairs op np i hlen hagree rest rest2 d hoccv.2 hrr
        unfold renameItemPairs
        have hkval : ¬ k.value = np.getD d "" := by
          by_cases hdi : d = i
          · rw [hdi]
            exact value_ne_of_occursName_false hocck.1
          · rw [← hagree d hdi]; exact hk
        rw [if_neg hkval, ih]
        rfl
termination_by sizeOf pairs

end

/-! ### Claim C9 -/

theorem splitPathAux_spec : ∀ (cs cur : List Char),
    splitPathAux cs cur =
      if cur.isEmpty then (dotRuns cs).map String.mk
      else String.mk (cur ++ cs.takeWhile (fun x => x ≠ '.')) ::
        (dotRuns (cs.dropWhile (fun x => x ≠ '.'))).map String.mk
  | [], cur => by
    unfold splitPathAux
    cases cur with
    | nil => simp [dotRuns]
    | cons a l => simp [dotRuns, List.takeWhile, List.dropWhile]
  | c :: cs, cur => by
    by_cases hc : c = '.'
    · subst hc
      unfold splitPathAux
      rw [if_pos rfl]
      have ih := splitPathAux_spec cs []
      cases cur with
      | nil =>
        simp only [List.isEmpty_nil, if_pos rfl] at ih ⊢
        rw [ih]
        simp [dotRuns]
      | cons a l =>
        simp only [List.isEmpty_nil, if_pos rfl] at ih
        simp only [List.isEmpty_cons, if_neg (by simp : ¬ ((a :: l).isEmpty = true))]
        rw [ih]
        simp [dotRuns, List.takeWhile, List.dropWhile]
    · unfold splitPathAux
      rw [if_neg hc]
      have ih := splitPathAux_spec cs (cur ++ [c])
      simp only [List.isEmpty_eq_true, List.append_eq_nil, List.cons_ne_self,
        and_false, if_neg] at ih
      rw [ih]
      cases cur with
      | nil =>
        simp [dotRuns, List.takeWhile, List.dropWhile, hc]
      | cons a l =>
        simp [List.takeWhile, List.dropWhile, hc, List.append_assoc]

/-- C9: splitting a dotted path collapses consecutive separators and drops
leading and trailing empty segments: for every input string, splitPath
returns exactly the maximal non-empty runs of non-dot characters, in
order; being a total function it raises no error on malformed strings. -/
theorem C9_splitPath_maximal_runs (s : String) : splitPath s = splitPathSpec s := by
  unfold splitPath splitPathSpec
  simpa using splitPathAux_spec s.data []

/-! ### Claim C2 -/

/-- C2: remove and rename in dry-run mode return the entire state (chassis
document, playbook registry, allocation registry) unchanged, whether or
not blockers or propagation targets exist, so the serialized document and
registry storage are byte-identical before and after. -/
theorem C2_dry_run_non_mutation (rst : RemoveState) (P : String)
    (st : RenameState) (o n : String) :
    (removeExecute rst P true).1 = rst ∧ (renameExecute st o n true).1 = st := by
  constructor
  · unfold removeExecute
    by_cases h : existsPath rst.doc P = false <;> simp [h]
  · unfold renameExecute
    by_cases h1 : existsPath st.doc o = false
    · simp [h1]
    · by_cases h2 : existsPath st.doc n <;> simp [h1, h2]

/-! ### Claim C6 -/

/-- A sample loaded document: platform with one layer holding one
section. -/
def sampleDoc : YNode :=
  .mk .document "" ""
    [.mk .mapping "" ""
      [scalarStr "platform",
       .mk .mapping "" ""
         [scalarStr "foundation",
          .mk .sequence "" "" [scalarStr "cluster"]]]]

/-- C6: adding a path that is already present fails with the
already-exists error and returns the document unchanged; the existence
check precedes any mutation of the node tree. -/
theorem C6_add_existing_fails (doc : YNode) (P : String)
    (hval : validatePathOk P = true) (hex : existsPath doc P = true) :
    addC doc P = (doc, some (.alreadyExists P)) := by
  unfold addC
  simp [hval, hex]

theorem C6_witness :
    addC sampleDoc "platform.foundation"
      = (sampleDoc, some (.alreadyExists "platform.foundation")) :=
  C6_add_existing_fails sampleDoc "platform.foundation" (by decide)
    (by simp [existsPath, sampleDoc, Flatten, flattenRootPairs, flattenMapPairs,
      flattenSeqItems, YNode.content, YNode.kind, YNode.value, YNode.tag, scalarStr,
      List.contains])

/-! ### Claim C10 -/

/-- All stages a playbook file must pass before being written and listed:
directory entry, read, parse, an actual match in the rewrite, re-marshal,
write. -/
def pfileTouched (f : PFile) (oldS newS : String) : Bool :=
  f.entryIsDir && f.readable && f.parses &&
    (updateHostsInNode f.node oldS newS).2 && f.marshals && f.writable

/-- All stages a node file must pass before being written and listed. -/
def nfileTouched (f : NFile) (oldS newS : String) : Bool :=
  !f.entryIsDir && f.isYaml && f.readable && f.parses &&
    (updateChassisInNode f.node oldS newS).2 && f.marshals && f.writable

theorem processPFile_eq (f : PFile) (o n : String) :
    processPFile f o n =
      ((if pfileTouched f o n then {f with node := (updateHostsInNode f.node o n).1} else f),
       (if pfileTouched f o n then some (pbPath f.name) else none)) := by
  unfold processPFile pfileTouched
  cases hed : f.entryIsDir <;> cases hrd : f.readable <;> cases hps : f.parses <;>
    cases hu : (updateHostsInNode f.node o n).2 <;> cases hms : f.marshals <;>
    cases hwr : f.writable <;> simp [hed, hrd, hps, hu, hms, hwr]

theorem processNFile_eq (pl : String) (f : NFile) (o n : String) :
    processNFile pl f o n =
      ((if nfileTouched f o n then {f with node := (updateChassisInNode f.node o n).1} else f),
       (if nfileTouched f o n then some (nfPath pl f.hostname) else none)) := by
  unfold processNFile nfileTouched
  cases hed : f.entryIsDir <;> cases hym : f.isYaml <;> cases hrd : f.readable <;>
    cases hps : f.parses <;> cases hu : (updateChassisInNode f.node o n).2 <;>
    cases hms : f.marshals <;> cases hwr : f.writable <;>
    simp [hed, hym, hrd, hps, hu, hms, hwr]

theorem updateAttachmentsFiles_char : ∀ (files : List PFile) (o n : String),
    updateAttachmentsFiles files o n =
      (files.map (fun f =>
        if pfileTouched f o n then {f with node := (updateHostsInNode f.node o n).1} else f),
       (files.filter (fun f => pfileTouched f o n)).map (fun f => pbPath f.name))
  | [], _, _ => rfl
  | f :: rest, o, n => by
    unfold updateAttachmentsFiles
    rw [processPFile_eq, updateAttachmentsFiles_char rest o n]
    by_cases ht : pfileTouched f o n <;> simp [ht, List.filter]

theorem updateAllocationsNFiles_char : ∀ (pl : String) (files : List NFile) (o n : String),
    updateAllocationsNFiles pl files o n =
      (files.map (fun f =>
        if nfileTouched f o n then {f with node := (updateChassisInNode f.node o n).1} else f),
       (files.filter (fun f => nfileTouched f o n)).map (fun f => nfPath pl f.hostname))
  | _, [], _, _ => rfl
  | pl, f :: rest, o, n => by
    unfold updateAllocationsNFiles
    rw [processNFile_eq, updateAllocationsNFiles_char pl rest o n]
    by_cases ht : nfileTouched f o n <;> simp [ht, List.filter]

theorem updateAllocationsPlatforms_char : ∀ (ps : List Platform) (o n : String),
    updateAllocationsPlatforms ps o n =
      (ps.map (fun p =>
        if p.entryIsDir && p.nodesDirOk then
          {p with files := p.files.map (fun f =>
            if nfileTouched f o n then {f with node := (updateChassisInNode f.node o n).1} else f)}
        else p),
       ps.flatMap (fun p =>
        if p.entryIsDir && p.nodesDirOk then
          (p.files.filter (fun f => nfileTouched f o n)).map (fun f => nfPath p.name f.hostname)
        else []))
  | [], _, _ => rfl
  | p :: rest, o, n => by
    unfold updateAllocationsPlatforms
    rw [updateAllocationsPlatforms_char rest o n]
    by_cases hp : p.entryIsDir && p.nodesDirOk
    · have hp2 : p.entryIsDir = true ∧ p.nodesDirOk = true := by
        simpa [Bool.and_eq_true] using hp
      rw [updateAllocationsNFiles_char]
      simp [hp, hp2]
    · have hp2 : ¬ (p.entryIsDir = true ∧ p.nodesDirOk = true) := by
        simpa [Bool.and_eq_true] using hp
      simp [hp, hp2]

/-- C10: during rename propagation a record file that cannot be read,
parsed, re-marshalled or written back (or whose rewrite changed nothing)
is silently skipped: it is excluded from the returned updated list and its
stored content is unchanged, while every other file is still processed;
the scans return without surfacing any per-file error. -/
theorem C10_per_file_failures_skipped (files : List PFile) (ps : List Platform)
    (o n : String) :
    updateAttachmentsDir (.ok files) o n =
      .ok (.ok (files.map (fun f =>
            if pfileTouched f o n then {f with node := (updateHostsInNode f.node o n).1}
            else f)),
        (files.filter (fun f => pfileTouched f o n)).map (fun f => pbPath f.name)) ∧
    updateAllocationsDir (.ok ps) o n =
      .ok (.ok (ps.map (fun p =>
            if p.entryIsDir && p.nodesDirOk then
              {p with files := p.files.map (fun f =>
                if nfileTouched f o n then {f with node := (updateChassisInNode f.node o n).1}
                else f)}
            else p)),
        ps.flatMap (fun p =>
          if p.entryIsDir && p.nodesDirOk then
            (p.files.filter (fun f => nfileTouched f o n)).map
              (fun f => nfPath p.name f.hostname)
          else [])) := by
  constructor
  · simp only [updateAttachmentsDir]
    rw [updateAttachmentsFiles_char]
  · simp only [updateAllocationsDir]
    rw [updateAllocationsPlatforms_char]

/-! ### Claim C1 -/

/-- C1 counterexample state: the path plat.a exists, one allocated node
references it and one playbook attaches a component to it, so both
blocking sets are non-empty. -/
def c1State : RemoveState :=
  { doc := .mk .document "" ""
      [.mk .mapping "" ""
        [scalarStr "plat",
         .mk .mapping "" "" [scalarStr "a", .mk .sequence "" "" []]]],
    allocPlatforms := [[{ display := "host1@prod", effective := ["plat.a"] }]],
    pfiles := [{ name := "lay", entryIsDir := true, readable := true, parses := true,
                 marshals := true, writable := true,
                 plays := [{ hosts := "plat.a", roles := [.plain "compX"] }],
                 node := emptyMapping }] }

/-- C1 counterexample: with both blocking sets non-empty, the failure
reports only the allocated-node set; the attachment set is not carried by
the error, refuting the claim that the error reports both sets.  (The
document is still unmodified: the state is returned unchanged.) -/
theorem C1_counterexample :
    removeExecute c1State "plat.a" false
        = (c1State, .error (.nodesAllocated ["host1@prod"])) ∧
    (loadAttachments c1State.pfiles "plat.a").map (fun a => a.component) = ["compX"] ∧
    reportsAttachedSet (.nodesAllocated ["host1@prod"]) ["compX"] = false := by
  refine ⟨?_, ?_, rfl⟩
  · unfold removeExecute
    simp [c1State, existsPath, Flatten, flattenRootPairs, flattenMapPairs,
      flattenSeqItems, YNode.content, YNode.kind, YNode.value, YNode.tag, scalarStr,
      List.contains, allocatedNodesFor, loadAttachments, strStartsWith, extractRoleName,
      pbPath, emptyMapping]
  · simp [c1State, loadAttachments, strStartsWith, extractRoleName, pbPath]

/-- C1 amended: when the removed path exists, the run is not a dry run and
either blocking set is non-empty, the operation fails and the state
(hence the document) is unchanged; the error carries the allocated-node
set when it is non-empty, and otherwise the attached-component set. -/
theorem C1_blocked_remove_fails_unmodified (st : RemoveState) (P : String)
    (hex : existsPath st.doc P = true)
    (hblock : allocatedNodesFor st.allocPlatforms P ≠ [] ∨
      (loadAttachments st.pfiles P).map (fun a => a.component) ≠ []) :
    removeExecute st P false =
      (st, .error
        (if allocatedNodesFor st.allocPlatforms P ≠ []
         then .nodesAllocated (allocatedNodesFor st.allocPlatforms P)
         else .componentsAttached
           ((loadAttachments st.pfiles P).map (fun a => a.component)))) := by
  unfold removeExecute
  rw [hex]
  by_cases ha : allocatedNodesFor st.allocPlatforms P = []
  · have hb : (loadAttachments st.pfiles P).map (fun a => a.component) ≠ [] := by
      rcases hblock with h | h
      · exact absurd ha h
      · exact h
    simp [ha, hb, List.isEmpty_iff]
  · simp [ha, List.isEmpty_iff]

theorem C1_witness :
    removeExecute c1State "plat.a" false
      = (c1State, .error (.nodesAllocated ["host1@prod"])) := by
  have h := C1_blocked_remove_fails_unmodified c1State "plat.a"
    (by simp [c1State, existsPath, Flatten, flattenRootPairs, flattenMapPairs,
      flattenSeqItems, YNode.content, YNode.kind, YNode.value, YNode.tag, scalarStr,
      List.contains])
    (by left
        simp [c1State, allocatedNodesFor, strStartsWith, List.contains])
  rw [h]
  simp [c1State, allocatedNodesFor, strStartsWith]

/-! ### Claim C3 -/

/-- C3 counterexample: renaming an existing path onto itself fails with
the already-exists error, not the identical-path error, because the
existence checks of Rename.Execute run before Chassis.Rename's
identical-path check. -/
theorem C3_counterexample :
    renameDoc sampleDoc "platform" "platform"
        = (sampleDoc, some (.alreadyExists "platform")) ∧
    RenameErr.alreadyExists "platform" ≠ RenameErr.identical := by
  constructor
  · unfold renameDoc
    simp [existsPath, sampleDoc, Flatten, flattenRootPairs, flattenMapPairs,
      flattenSeqItems, YNode.content, YNode.kind, YNode.value, YNode.tag, scalarStr,
      List.contains]
  · simp

/-- C3 amended: the rename pipeline checks its preconditions in order
NotFound (old path missing), AlreadyExists (new path present, which
includes two equal existing paths), DepthMismatch (different segment
counts), Ambiguous (at least two differing positions); the
identical-path error is unreachable at the command level, and every
failure returns the document unchanged. -/
theorem C3_rename_error_cases (doc : YNode) (o n : String) :
    (existsPath doc o = false → renameDoc doc o n = (doc, some (.notFound o))) ∧
    (existsPath doc o = true → existsPath doc n = true →
      renameDoc doc o n = (doc, some (.alreadyExists n))) ∧
    (existsPath doc o = true → existsPath doc n = false →
      (splitDot o).length ≠ (splitDot n).length →
      renameDoc doc o n = (doc, some .depthMismatch)) ∧
    (existsPath doc o = true → existsPath doc n = false →
      (splitDot o).length = (splitDot n).length →
      2 ≤ diffCount (splitDot o) (splitDot n) →
      renameDoc doc o n = (doc, some .ambiguous)) ∧
    (∀ doc2 e, renameDoc doc o n = (doc2, some e) → doc2 = doc ∧ e ≠ .identical) := by
  refine ⟨?_, ?_, ?_, ?_, ?_⟩
  · intro h1
    unfold renameDoc
    simp [h1]
  · intro h1 h2
    unfold renameDoc
    simp [h1, h2]
  · intro h1 h2 h3
    unfold renameDoc chassisRename
    simp [h1, h2, h3]
  · intro h1 h2 h3 h4
    unfold renameDoc chassisRename
    have h5 : 2 ≤ diffCount (splitDot o) (splitDot n) + 0 := by omega
    have h6 := ds_ambiguous (splitDot o) (splitDot n) 0 none h3 h5
    simp [h1, h2, h3, h6]
  · intro doc2 e h
    unfold renameDoc at h
    by_cases h1 : existsPath doc o = false
    · rw [if_pos h1] at h
      injection h with ha hb
      injection hb with hb
      constructor
      · exact ha.symm
      · rw [← hb]; simp
    · rw [if_neg h1] at h
      by_cases h2 : existsPath doc n
      · rw [if_pos h2] at h
        injection h with ha hb
        injection hb with hb
        constructor
        · exact ha.symm
        · rw [← hb]; simp
      · rw [if_neg h2] at h
        unfold chassisRename at h
        by_cases h3 : (splitDot o).length ≠ (splitDot n).length
        · rw [if_pos h3] at h
          injection h with ha hb
          injection hb with hb
          constructor
          · exact ha.symm
          · rw [← hb]; simp
        · rw [if_neg h3] at h
          cases hds : diffScan (splitDot o) (splitDot n) 0 none with
          | error e2 =>
            rw [hds] at h
            injection h with ha hb
            injection hb with hb
            subst hb
            refine ⟨ha.symm, ?_⟩
            intro hid
            subst hid
            have hoeq := (ds_identical _ _ 0 none hds).1
            have : o = n := by
              have ho := joinDot_splitDot o
              have hn := joinDot_splitDot n
              rw [← ho, ← hn, hoeq]
            rw [this] at h1
            simp only [Bool.not_eq_false] at h1
            rw [h1] at h2
            exact h2 rfl
          | ok i =>
            rw [hds] at h
            rcases hc : doc.content with _ | ⟨root, tl⟩
            · rw [hc] at h
              have h4 : ((doc, none) : YNode × Option RenameErr) = (doc2, some e) := h
              injection h4 with ha hb
              cases hb
            · rw [hc] at h
              have h4 : ((YNode.mk doc.kind doc.tag doc.value
                  ((renameInNode root (splitDot o) (splitDot n) i 0).1 :: tl), none)
                    : YNode × Option RenameErr) = (doc2, some e) := h
              injection h4 with ha hb
              cases hb

theorem C3_witness :
    renameDoc sampleDoc "nope" "x" = (sampleDoc, some (.notFound "nope")) ∧
    renameDoc sampleDoc "platform.foundation.cluster" "platform.newlayer"
      = (sampleDoc, some .depthMismatch) ∧
    renameDoc sampleDoc "platform.foundation.cluster" "plat2.found2.cluster"
      = (sampleDoc, some .ambiguous) := by
  refine ⟨?_, ?_, ?_⟩
  · exact (C3_rename_error_cases sampleDoc "nope" "x").1
      (by simp [existsPath, sampleDoc, Flatten, flattenRootPairs, flattenMapPairs,
        flattenSeqItems, YNode.content, YNode.kind, YNode.value, YNode.tag, scalarStr,
        List.contains])
  · exact (C3_rename_error_cases sampleDoc "platform.foundation.cluster"
      "platform.newlayer").2.2.1
      (by simp [existsPath, sampleDoc, Flatten, flattenRootPairs, flattenMapPairs,
        flattenSeqItems, YNode.content, YNode.kind, YNode.value, YNode.tag, scalarStr,
        List.contains])
      (by simp [existsPath, sampleDoc, Flatten, flattenRootPairs, flattenMapPairs,
        flattenSeqItems, YNode.content, YNode.kind, YNode.value, YNode.tag, scalarStr,
        List.contains])
      (by decide)
  · exact (C3_rename_error_cases sampleDoc "platform.foundation.cluster"
      "plat2.found2.cluster").2.2.2.1
      (by simp [existsPath, sampleDoc, Flatten, flattenRootPairs, flattenMapPairs,
        flattenSeqItems, YNode.content, YNode.kind, YNode.value, YNode.tag, scalarStr,
        List.contains])
      (by simp [existsPath, sampleDoc, Flatten, flattenRootPairs, flattenMapPairs,
        flattenSeqItems, YNode.content, YNode.kind, YNode.value, YNode.tag, scalarStr,
        List.contains])
      (by decide)
      (by decide)

/-! ### Claim C7 -/

/-- Does a sequence item match the removal target name: a scalar with that
value or a mapping containing that key (the two shapes Chassis.Remove
deletes). -/
def itemMatchesName (name : String) : YNode → Bool
  | .mk .scalar _ vl _ => vl == name
  | .mk .mapping _ _ pairs => pairsHaveKey name pairs
  | _ => false

mutual

/-- Follows the words of the claim: a dangling empty group is a mapping
pair whose value is a sequence container with no children, anywhere in
the tree. -/
def hasDanglingEmptyGroup (t : YNode) : Bool :=
  match t with
  | .mk .mapping _ _ c => hasDanglingPairs c
  | .mk _ _ _ c => hasDanglingList c
termination_by 3 * sizeOf t

def hasDanglingList : List YNode → Bool
  | [] => false
  | x :: xs => hasDanglingEmptyGroup x || hasDanglingList xs
termination_by l => 3 * sizeOf l + 1

def hasDanglingPairs : List YNode → Bool
  | k :: v :: rest =>
    (v.kind = .sequence && v.content.isEmpty) || hasDanglingEmptyGroup v ||
      hasDanglingPairs rest
  | _ => false
termination_by l => 3 * sizeOf l + 2

end

/-- The document for the C7 counterexample: the group cluster holds the
single scalar child control. -/
def c7Doc : YNode :=
  .mk .document "" ""
    [.mk .mapping "" ""
      [scalarStr "plat",
       .mk .mapping "" ""
         [scalarStr "lay",
          .mk .sequence "" ""
            [.mk .mapping "" ""
              [scalarStr "cluster",
               .mk .sequence "" "" [scalarStr "control"]]]]]]

/-- C7 counterexample: removing the last (scalar) child of an
intermediate group succeeds but retains the group's now-empty sequence
container (cluster maps to an empty sequence afterwards), so the claimed
universal cleanup of empty containers does not hold. -/
theorem C7_counterexample :
    (removeC c7Doc "plat.lay.cluster.control").2 = none ∧
    hasDanglingEmptyGroup c7Doc = false ∧
    hasDanglingEmptyGroup (removeC c7Doc "plat.lay.cluster.control").1 = true := by
  refine ⟨?_, ?_, ?_⟩ <;>
    simp [removeC, c7Doc, existsPath, Flatten, flattenRootPairs, flattenMapPairs,
      flattenSeqItems, YNode.content, YNode.kind, YNode.value, YNode.tag, scalarStr,
      List.contains, splitDot, splitDotChars, updatePairValue, removePairByKey,
      removePathFromSequence, removeSeqItems, removeRecursePairs, removeExactInMapItem,
      setContent, hasDanglingEmptyGroup, hasDanglingList, hasDanglingPairs]

theorem removeExactInMapItem_none : ∀ (pairs : List YNode) (name : String),
    pairsHaveKey name pairs = false → removeExactInMapItem pairs name = none
  | [], _, _ => rfl
  | [_], _, _ => rfl
  | k :: v :: rest, name, h => by
    unfold pairsHaveKey at h
    simp only [Bool.or_eq_false_iff, beq_eq_false_iff_ne] at h
    unfold removeExactInMapItem
    rw [if_neg h.1, removeExactInMapItem_none rest name h.2]
    rfl

/-- C7 amended: with no earlier matching sibling, remove deletes exactly
the target child from the parent sequence's ordered list: a scalar child
is dropped, and a mapping child whose sole pair carries the key is
dropped whole (Go's len(item.Content) == 2 case); an intermediate group
whose sequence merely becomes empty is retained, as the counterexample
shows, so no broader cleanup happens. -/
theorem C7_remove_child_from_sequence : ∀ (pre : List YNode) (post : List YNode)
    (name : String) (tg vl tg3 : String) (k sub : YNode) (c2 : List YNode),
    (∀ it ∈ pre, itemMatchesName name it = false) →
    k.value = name →
    removeSeqItems (pre ++ .mk .mapping tg vl [k, sub] :: post) name [] = (pre ++ post, true) ∧
    removeSeqItems (pre ++ .mk .scalar tg3 name c2 :: post) name [] = (pre ++ post, true)
  | [], post, name, tg, vl, tg3, k, sub, c2, _, hk => by
    constructor
    · simp only [List.nil_append]
      simp only [removeSeqItems, List.isEmpty_nil, if_pos rfl]
      unfold removeExactInMapItem
      rw [if_pos hk]
      simp
    · simp only [List.nil_append]
      simp only [removeSeqItems, List.isEmpty_nil, if_pos rfl]
      simp
  | it :: pre, post, name, tg, vl, tg3, k, sub, c2, hpre, hk => by
    have hit : itemMatchesName name it = false := hpre it (List.mem_cons_self it pre)
    have hrest : ∀ x ∈ pre, itemMatchesName name x = false :=
      fun x hx => hpre x (List.mem_cons_of_mem it hx)
    have ih := C7_remove_child_from_sequence pre post name tg vl tg3 k sub c2 hrest hk
    constructor
    · simp only [List.cons_append]
      cases it with
      | mk kd itg ivl ic =>
        cases kd with
        | scalar =>
          have hne : ivl ≠ name := by
            simpa [itemMatchesName] using hit
          simp only [removeSeqItems, List.isEmpty_nil, if_pos rfl]
          rw [if_neg hne]
          simp [ih.1]
        | mapping =>
          have hnk : pairsHaveKey name ic = false := by
            simpa [itemMatchesName] using hit
          simp only [removeSeqItems, List.isEmpty_nil, if_pos rfl]
          rw [removeExactInMapItem_none ic name hnk]
          simp [ih.1]
        | sequence =>
          simp only [removeSeqItems, List.isEmpty_nil, if_pos rfl]
          simp [ih.1]
        | document =>
          simp only [removeSeqItems, List.isEmpty_nil, if_pos rfl]
          simp [ih.1]
    · simp only [List.cons_append]
      cases it with
      | mk kd itg ivl ic =>
        cases kd with
        | scalar =>
          have hne : ivl ≠ name := by
            simpa [itemMatchesName] using hit
          simp only [removeSeqItems, List.isEmpty_nil, if_pos rfl]
          rw [if_neg hne]
          simp [ih.2]
        | mapping =>
          have hnk : pairsHaveKey name ic = false := by
            simpa [itemMatchesName] using hit
          simp only [removeSeqItems, List.isEmpty_nil, if_pos rfl]
          rw [removeExactInMapItem_none ic name hnk]
          simp [ih.2]
        | sequence =>
          simp only [removeSeqItems, List.isEmpty_nil, if_pos rfl]
          simp [ih.2]
        | document =>
          simp only [removeSeqItems, List.isEmpty_nil, if_pos rfl]
          simp [ih.2]

theorem C7_witness :
    removeSeqItems [scalarStr "other",
        .mk .mapping "" "" [scalarStr "cluster", .mk .sequence "" "" []]] "cluster" []
      = ([scalarStr "other"], true) ∧
    removeSeqItems [scalarStr "other", scalarStr "cluster"] "cluster" []
      = ([scalarStr "other"], true) := by
  have h := C7_remove_child_from_sequence [scalarStr "other"] [] "cluster" "" "" "!!str"
    (scalarStr "cluster") (.mk .sequence "" "" []) []
    (by intro it hit
        simp only [List.mem_singleton] at hit
        subst hit
        simp [itemMatchesName, scalarStr])
    (by simp [scalarStr, YNode.value])
  exact ⟨h.1, h.2⟩

/-! ### Claim C8 -/

mutual

/-- Structural boolean equality on node trees. -/
def ynodeEq (a b : YNode) : Bool :=
  match a, b with
  | .mk k1 t1 v1 c1, .mk k2 t2 v2 c2 => k1 == k2 && t1 == t2 && v1 == v2 && ynodeListEq c1 c2
termination_by 2 * sizeOf a

def ynodeListEq : List YNode → List YNode → Bool
  | [], [] => true
  | x :: xs, y :: ys => ynodeEq x y && ynodeListEq xs ys
  | _, _ => false
termination_by l _ => 2 * sizeOf l + 1

end

mutual

theorem ynodeEq_iff : ∀ (a b : YNode), ynodeEq a b = true ↔ a = b
  | .mk k1 t1 v1 c1, .mk k2 t2 v2 c2 => by
    unfold ynodeEq
    rw [Bool.and_eq_true, Bool.and_eq_true, Bool.and_eq_true,
      ynodeListEq_iff c1 c2]
    simp only [beq_iff_eq, YNode.mk.injEq]
    tauto
termination_by a _ => sizeOf a

theorem ynodeListEq_iff : ∀ (l1 l2 : List YNode), ynodeListEq l1 l2 = true ↔ l1 = l2
  | [], [] => by simp [ynodeListEq]
  | [], _ :: _ => by simp [ynodeListEq]
  | _ :: _, [] => by simp [ynodeListEq]
  | x :: xs, y :: ys => by
    unfold ynodeListEq
    rw [Bool.and_eq_true, ynodeEq_iff x y, ynodeListEq_iff xs ys]
    simp
termination_by l _ => sizeOf l

end

instance : DecidableEq YNode := fun a b =>
  decidable_of_iff (ynodeEq a b = true) (ynodeEq_iff a b)

/-- A matching stored path value is actually changed by the rewrite when
the two section names differ. -/
theorem rewriteRef_ne {o n v : String} (hne : o ≠ n) (hm : refMatches o v = true) :
    rewriteRef o n v ≠ v := by
  unfold refMatches at hm
  unfold rewriteRef
  by_cases hv : v = o
  · rw [if_pos hv]
    intro h
    exact hne (hv.symm.trans h.symm)
  · rw [if_neg hv]
    have hp : strStartsWith v (o ++ ".") = true := by
      rw [Bool.or_eq_true] at hm
      rcases hm with h | h
      · exact absurd (by simpa using h) hv
      · exact h
    rw [if_pos hp]
    intro h
    unfold strStartsWith at hp
    have hp2 : (o ++ ".").data <+: v.data := List.isPrefixOf_iff_prefix.mp hp
    obtain ⟨r, hr⟩ := hp2
    have hdata : n.data ++ v.data.drop o.data.length = v.data := congrArg String.data h
    have hod : (o ++ ".").data = o.data ++ '.' :: [] := by
      rw [String.data_append]
    rw [← hr, hod] at hdata
    have hdrop : ((o.data ++ '.' :: []) ++ r).drop o.data.length = '.' :: r := by
      rw [List.append_assoc, List.drop_left]
      rfl
    rw [hdrop, List.append_assoc] at hdata
    have hoe : n.data = o.data := List.append_cancel_right hdata
    exact hne (String.ext hoe).symm

/-- An unmatched stored path value is left alone by the rewrite. -/
theorem rewriteRef_id {o n v : String} (hm : refMatches o v = false) :
    rewriteRef o n v = v := by
  unfold refMatches at hm
  simp only [Bool.or_eq_false_iff, beq_eq_false_iff_ne] at hm
  unfold rewriteRef
  rw [if_neg hm.1, if_neg (by simp [hm.2])]

mutual

/-- Follows the words of the spec: replace every stored hosts value that
matches the renamed section, preserving everything else in the record. -/
def rewriteHostsSpec (t : YNode) (oldS newS : String) : YNode :=
  match t with
  | .mk .document tg vl c => .mk .document tg vl (rewriteHostsSpecList c oldS newS)
  | .mk .sequence tg vl c => .mk .sequence tg vl (rewriteHostsSpecList c oldS newS)
  | .mk .mapping tg vl c => .mk .mapping tg vl (rewriteHostsSpecPairs c oldS newS)
  | other => other
termination_by 2 * sizeOf t

def rewriteHostsSpecList (l : List YNode) (oldS newS : String) : List YNode :=
  match l with
  | [] => []
  | x :: xs => rewriteHostsSpec x oldS newS :: rewriteHostsSpecList xs oldS newS
termination_by 2 * sizeOf l + 1

def rewriteHostsSpecPairs (pairs : List YNode) (oldS newS : String) : List YNode :=
  match pairs with
  | k :: v :: rest =>
    if k.value = "hosts" && v.kind = .scalar then
      k :: YNode.mk v.kind v.tag (rewriteRef oldS newS v.value) v.content ::
        rewriteHostsSpecPairs rest oldS newS
    else k :: rewriteHostsSpec v oldS newS :: rewriteHostsSpecPairs rest oldS newS
  | other => other
termination_by 2 * sizeOf pairs + 1

end

/-- Follows the words of the spec for allocation records: replace every
matching scalar entry of a chassis array. -/
def rewriteChassisItems (items : List YNode) (oldS newS : String) : List YNode :=
  match items with
  | [] => []
  | .mk .scalar tg vl c :: rest =>
    .mk .scalar tg (rewriteRef oldS newS vl) c :: rewriteChassisItems rest oldS newS
  | item :: rest => item :: rewriteChassisItems rest oldS newS

mutual

def rewriteChassisSpec (t : YNode) (oldS newS : String) : YNode :=
  match t with
  | .mk .document tg vl c => .mk .document tg vl (rewriteChassisSpecList c oldS newS)
  | .mk .mapping tg vl c => .mk .mapping tg vl (rewriteChassisSpecPairs c oldS newS)
  | other => other
termination_by 2 * sizeOf t

def rewriteChassisSpecList (l : List YNode) (oldS newS : String) : List YNode :=
  match l with
  | [] => []
  | x :: xs => rewriteChassisSpec x oldS newS :: rewriteChassisSpecList xs oldS newS
termination_by 2 * sizeOf l + 1

def rewriteChassisSpecPairs (pairs : List YNode) (oldS newS : String) : List YNode :=
  match pairs with
  | k :: v :: rest =>
    if k.value = "chassis" && v.kind = .sequence then
      k :: setContent v (rewriteChassisItems v.content oldS newS) ::
        rewriteChassisSpecPairs rest oldS newS
    else k :: rewriteChassisSpec v oldS newS :: rewriteChassisSpecPairs rest oldS newS
  | other => other
termination_by 2 * sizeOf pairs + 1

end

theorem ynode_eta (v : YNode) : YNode.mk v.kind v.tag v.value v.content = v := by
  cases v
  rfl

theorem ne_mk_content (kd : YKind) (tg vl : String) (c1 c2 : List YNode) :
    (YNode.mk kd tg vl c1 ≠ .mk kd tg vl c2) ↔ c1 ≠ c2 := by
  simp

theorem cons2_ne (k x y : YNode) (xs ys : List YNode) :
    (k :: x :: xs ≠ k :: y :: ys) ↔ (x ≠ y ∨ xs ≠ ys) := by
  constructor
  · intro h
    by_cases hx : x = y
    · by_cases hxs : xs = ys
      · exact absurd (by rw [hx, hxs]) h
      · exact Or.inr hxs
    · exact Or.inl hx
  · rintro (h | h) he <;> injection he with h1 h2 <;> injection h2 with h3 h4
    · exact h h3
    · exact h h4

mutual

theorem uhNode (o n : String) (hne : o ≠ n) : ∀ (t : YNode),
    (updateHostsInNode t o n).1 = rewriteHostsSpec t o n ∧
    ((updateHostsInNode t o n).2 = true ↔ rewriteHostsSpec t o n ≠ t)
  | .mk .document tg vl c => by
    have ih := uhList o n hne c
    simp only [updateHostsInNode, rewriteHostsSpec]
    exact ⟨by rw [ih.1], by rw [ne_mk_content]; exact ih.2⟩
  | .mk .sequence tg vl c => by
    have ih := uhList o n hne c
    simp only [updateHostsInNode, rewriteHostsSpec]
    exact ⟨by rw [ih.1], by rw [ne_mk_content]; exact ih.2⟩
  | .mk .mapping tg vl c => by
    have ih := uhPairs o n hne c
    simp only [updateHostsInNode, rewriteHostsSpec]
    exact ⟨by rw [ih.1], by rw [ne_mk_content]; exact ih.2⟩
  | .mk .scalar tg vl c => by
    simp only [updateHostsInNode, rewriteHostsSpec]
    simp
termination_by t => sizeOf t

theorem uhList (o n : String) (hne : o ≠ n) : ∀ (l : List YNode),
    (updateHostsList l o n).1 = rewriteHostsSpecList l o n ∧
    ((updateHostsList l o n).2 = true ↔ rewriteHostsSpecList l o n ≠ l)
  | [] => by
    simp only [updateHostsList, rewriteHostsSpecList]
    simp
  | x :: xs => by
    have ihx := uhNode o n hne x
    have ihxs := uhList o n hne xs
    simp only [updateHostsList, rewriteHostsSpecList]
    constructor
    · rw [ihx.1, ihxs.1]
    · rw [Bool.or_eq_true, ihx.2, ihxs.2]
      constructor
      · rintro (h | h) he <;> injection he with h1 h2
        · exact h h1
        · exact h h2
      · intro h
        by_cases hx : rewriteHostsSpec x o n = x
        · by_cases hxs : rewriteHostsSpecList xs o n = xs
          · exact absurd (by rw [hx, hxs]) h
          · exact Or.inr hxs
        · exact Or.inl hx
termination_by l => sizeOf l

theorem uhPairs (o n : String) (hne : o ≠ n) : ∀ (pairs : List YNode),
    (updateHostsPairs pairs o n).1 = rewriteHostsSpecPairs pairs o n ∧
    ((updateHostsPairs pairs o n).2 = true ↔ rewriteHostsSpecPairs pairs o n ≠ pairs)
  | [] => by
    simp only [updateHostsPairs, rewriteHostsSpecPairs]
    simp
  | [k] => by
    simp only [updateHostsPairs, rewriteHostsSpecPairs]
    simp
  | k :: v :: rest => by
    have ihr := uhPairs o n hne rest
    by_cases hkv : k.value = "hosts" ∧ v.kind = .scalar
    · simp only [updateHostsPairs, rewriteHostsSpecPairs,
        if_pos (by simp [hkv.1, hkv.2] :
          (k.value = "hosts" && v.kind = YKind.scalar) = true)]
      cases hhit : refMatches o v.value with
      | true =>
        have hvne : YNode.mk v.kind v.tag (rewriteRef o n v.value) v.content ≠ v := by
          intro he
          have := congrArg YNode.value he
          simp only [YNode.value] at this
          cases v with
          | mk a b c d => exact rewriteRef_ne hne hhit this
        constructor
        · rw [ihr.1]
          simp
        · simp only [Bool.true_or, true_iff]
          rw [cons2_ne]
          exact Or.inl hvne
      | false =>
        have hveq : YNode.mk v.kind v.tag (rewriteRef o n v.value) v.content = v := by
          rw [rewriteRef_id hhit, ynode_eta]
        constructor
        · rw [ihr.1]
          simp only [if_neg (by simp : ¬ (false = true))]
          rw [hveq]
        · simp only [Bool.false_or]
          rw [ihr.2, cons2_ne, hveq]
          simp
    · have hcond : ¬ ((k.value = "hosts" && v.kind = YKind.scalar) = true) := by
        intro hc
        rw [Bool.and_eq_true] at hc
        exact hkv ⟨by simpa using hc.1, by simpa using hc.2⟩
      simp only [updateHostsPairs, rewriteHostsSpecPairs, if_neg hcond]
      have ihv := uhNode o n hne v
      constructor
      · rw [ihv.1, ihr.1]
      · rw [Bool.or_eq_true, ihv.2, ihr.2, cons2_ne]
termination_by pairs => sizeOf pairs

end

theorem setContent_eq_self_iff (v : YNode) (x : List YNode) :
    setContent v x = v ↔ x = v.content := by
  cases v with
  | mk a b c d =>
    simp [setContent, YNode.kind, YNode.tag, YNode.value, YNode.content]

theorem cons_ne (x y : YNode) (xs ys : List YNode) :
    (x :: xs ≠ y :: ys) ↔ (x ≠ y ∨ xs ≠ ys) := by
  constructor
  · intro h
    by_cases hx : x = y
    · by_cases hxs : xs = ys
      · exact absurd (by rw [hx, hxs]) h
      · exact Or.inr hxs
    · exact Or.inl hx
  · rintro (h | h) he <;> injection he with h1 h2
    · exact h h1
    · exact h h2

theorem ucItems (o n : String) (hne : o ≠ n) : ∀ (items : List YNode),
    (updateChassisItems items o n).1 = rewriteChassisItems items o n ∧
    ((updateChassisItems items o n).2 = true ↔ rewriteChassisItems items o n ≠ items)
  | [] => by
    simp only [updateChassisItems, rewriteChassisItems]
    simp
  | .mk .scalar tg vl c :: rest => by
    have ihr := ucItems o n hne rest
    simp only [updateChassisItems, rewriteChassisItems]
    by_cases hhit : refMatches o vl = true
    · simp only [hhit, eq_self_iff_true, if_true]
      constructor
      · rw [ihr.1]
      · simp only [true_iff]
        rw [cons_ne]
        exact Or.inl (by
          intro he
          injection he with h1 h2 h3 h4
          exact rewriteRef_ne hne hhit h3)
    · have hh : refMatches o vl = false := by simpa using hhit
      simp only [hh, if_neg (by simp : ¬ (false = true))]
      constructor
      · rw [ihr.1, rewriteRef_id hh]
      · rw [ihr.2, cons_ne, rewriteRef_id hh]
        simp
  | .mk .document tg vl c :: rest => by
    have ihr := ucItems o n hne rest
    simp only [updateChassisItems, rewriteChassisItems]
    constructor
    · rw [ihr.1]
    · rw [ihr.2, cons_ne]
      simp
  | .mk .mapping tg vl c :: rest => by
    have ihr := ucItems o n hne rest
    simp only [updateChassisItems, rewriteChassisItems]
    constructor
    · rw [ihr.1]
    · rw [ihr.2, cons_ne]
      simp
  | .mk .sequence tg vl c :: rest => by
    have ihr := ucItems o n hne rest
    simp only [updateChassisItems, rewriteChassisItems]
    constructor
    · rw [ihr.1]
    · rw [ihr.2, cons_ne]
      simp

mutual

theorem ucNode (o n : String) (hne : o ≠ n) : ∀ (t : YNode),
    (updateChassisInNode t o n).1 = rewriteChassisSpec t o n ∧
    ((updateChassisInNode t o n).2 = true ↔ rewriteChassisSpec t o n ≠ t)
  | .mk .document tg vl c => by
    have ih := ucList o n hne c
    simp only [updateChassisInNode, rewriteChassisSpec]
    exact ⟨by rw [ih.1], by rw [ne_mk_content]; exact ih.2⟩
  | .mk .mapping tg vl c => by
    have ih := ucPairs o n hne c
    simp only [updateChassisInNode, rewriteChassisSpec]
    exact ⟨by rw [ih.1], by rw [ne_mk_content]; exact ih.2⟩
  | .mk .sequence tg vl c => by
    simp only [updateChassisInNode, rewriteChassisSpec]
    simp
  | .mk .scalar tg vl c => by
    simp only [updateChassisInNode, rewriteChassisSpec]
    simp
termination_by t => sizeOf t

theorem ucList (o n : String) (hne : o ≠ n) : ∀ (l : List YNode),
    (updateChassisList l o n).1 = rewriteChassisSpecList l o n ∧
    ((updateChassisList l o n).2 = true ↔ rewriteChassisSpecList l o n ≠ l)
  | [] => by
    simp only [updateChassisList, rewriteChassisSpecList]
    simp
  | x :: xs => by
    have ihx := ucNode o n hne x
    have ihxs := ucList o n hne xs
    simp only [updateChassisList, rewriteChassisSpecList]
    constructor
    · rw [ihx.1, ihxs.1]
    · rw [Bool.or_eq_true, ihx.2, ihxs.2]
      constructor
      · rintro (h | h) he <;> injection he with h1 h2
        · exact h h1
        · exact h h2
      · intro h
        by_cases hx : rewriteChassisSpec x o n = x
        · by_cases hxs : rewriteChassisSpecList xs o n = xs
          · exact absurd (by rw [hx, hxs]) h
          · exact Or.inr hxs
        · exact Or.inl hx
termination_by l => sizeOf l

theorem ucPairs (o n : String) (hne : o ≠ n) : ∀ (pairs : List YNode),
    (updateChassisPairs pairs o n).1 = rewriteChassisSpecPairs pairs o n ∧
    ((updateChassisPairs pairs o n).2 = true ↔ rewriteChassisSpecPairs pairs o n ≠ pairs)
  | [] => by
    simp only [updateChassisPairs, rewriteChassisSpecPairs]
    simp
  | [k] => by
    simp only [updateChassisPairs, rewriteChassisSpecPairs]
    simp
  | k :: v :: rest => by
    have ihr := ucPairs o n hne rest
    by_cases hkv : k.value = "chassis" ∧ v.kind = .sequence
    · simp only [updateChassisPairs, rewriteChassisSpecPairs,
        if_pos (by simp [hkv.1, hkv.2] :
          (k.value = "chassis" && v.kind = YKind.sequence) = true)]
      have ihi := ucItems o n hne v.content
      constructor
      · rw [ihi.1, ihr.1]
      · rw [Bool.or_eq_true, ihi.2, ihr.2, cons2_ne,
          show (setContent v (rewriteChassisItems v.content o n) ≠ v) ↔
              (rewriteChassisItems v.content o n ≠ v.content) from
            not_congr (setContent_eq_self_iff v (rewriteChassisItems v.content o n))]
    · have hcond : ¬ ((k.value = "chassis" && v.kind = YKind.sequence) = true) := by
        intro hc
        rw [Bool.and_eq_true] at hc
        exact hkv ⟨by simpa using hc.1, by simpa using hc.2⟩
      simp only [updateChassisPairs, rewriteChassisSpecPairs, if_neg hcond]
      have ihv := ucNode o n hne v
      constructor
      · rw [ihv.1, ihr.1]
      · rw [Bool.or_eq_true, ihv.2, ihr.2, cons2_ne]
termination_by pairs => sizeOf pairs

end

theorem pfileTouched_flag (o n : String) (f : PFile)
    (hf : (f.entryIsDir && f.readable && f.parses && f.marshals && f.writable) = true) :
    pfileTouched f o n = (updateHostsInNode f.node o n).2 := by
  unfold pfileTouched
  repeat rw [Bool.and_eq_true] at hf
  rw [hf.1.1.1.1, hf.1.1.1.2, hf.1.1.2, hf.1.2, hf.2]
  simp

theorem nfileTouched_flag (o n : String) (f : NFile)
    (hf : (!f.entryIsDir && f.isYaml && f.readable && f.parses && f.marshals && f.writable) = true) :
    nfileTouched f o n = (updateChassisInNode f.node o n).2 := by
  unfold nfileTouched
  repeat rw [Bool.and_eq_true] at hf
  rw [hf.1.1.1.1.1, hf.1.1.1.1.2, hf.1.1.1.2, hf.1.1.2, hf.1.2, hf.2]
  simp

/-- C8: the reference-rewriting scan of rename propagation replaces, in
every record, exactly the stored chassis-path values that equal the old
path or lie under it (hosts selectors in playbooks, chassis entries in
allocation files), preserves every other part of the record, and the
returned lists are exactly the records whose contents changed. -/
theorem C8_rewriteReferences_spec (o n : String) (hne : o ≠ n) :
    (∀ t : YNode, (updateHostsInNode t o n).1 = rewriteHostsSpec t o n ∧
      ((updateHostsInNode t o n).2 = true ↔ rewriteHostsSpec t o n ≠ t)) ∧
    (∀ t : YNode, (updateChassisInNode t o n).1 = rewriteChassisSpec t o n ∧
      ((updateChassisInNode t o n).2 = true ↔ rewriteChassisSpec t o n ≠ t)) ∧
    (∀ files : List PFile,
      (∀ f ∈ files,
        (f.entryIsDir && f.readable && f.parses && f.marshals && f.writable) = true) →
      (updateAttachmentsFiles files o n).2 =
        (files.filter (fun f => decide (rewriteHostsSpec f.node o n ≠ f.node))).map
          (fun f => pbPath f.name)) ∧
    (∀ ps : List Platform,
      (∀ p ∈ ps, (p.entryIsDir && p.nodesDirOk) = true ∧
        ∀ f ∈ p.files,
          (!f.entryIsDir && f.isYaml && f.readable && f.parses && f.marshals && f.writable)
            = true) →
      (updateAllocationsPlatforms ps o n).2 =
        ps.flatMap (fun p =>
          (p.files.filter (fun f => decide (rewriteChassisSpec f.node o n ≠ f.node))).map
            (fun f => nfPath p.name f.hostname))) := by
  refine ⟨uhNode o n hne, ucNode o n hne, ?_, ?_⟩
  · intro files hflags
    rw [updateAttachmentsFiles_char]
    have hfe : ∀ f ∈ files, pfileTouched f o n
        = decide (rewriteHostsSpec f.node o n ≠ f.node) := by
      intro f hf
      rw [pfileTouched_flag o n f (hflags f hf)]
      rw [Bool.eq_iff_iff]
      rw [(uhNode o n hne f.node).2]
      simp
    rw [List.filter_congr hfe]
  · intro ps hps
    induction ps with
    | nil => rfl
    | cons p rest ih =>
      have hp := hps p (List.mem_cons_self p rest)
      have hrest : ∀ q ∈ rest, (q.entryIsDir && q.nodesDirOk) = true ∧
          ∀ f ∈ q.files,
            (!f.entryIsDir && f.isYaml && f.readable && f.parses && f.marshals && f.writable)
              = true :=
        fun q hq => hps q (List.mem_cons_of_mem p hq)
      unfold updateAllocationsPlatforms
      rw [if_pos hp.1]
      rw [updateAllocationsNFiles_char]
      have hfe : ∀ f ∈ p.files, nfileTouched f o n
          = decide (rewriteChassisSpec f.node o n ≠ f.node) := by
        intro f hf
        rw [nfileTouched_flag o n f (hp.2 f hf)]
        rw [Bool.eq_iff_iff]
        rw [(ucNode o n hne f.node).2]
        simp
      rw [List.filter_congr hfe]
      simp only [List.flatMap_cons]
      rw [← ih hrest]

theorem C8_witness :
    (updateHostsInNode (.mk .mapping "" "" [scalarStr "hosts", scalarStr "a.x"]) "a" "b").1
      = rewriteHostsSpec (.mk .mapping "" "" [scalarStr "hosts", scalarStr "a.x"]) "a" "b" :=
  ((C8_rewriteReferences_spec "a" "b" (by decide)).1
    (.mk .mapping "" "" [scalarStr "hosts", scalarStr "a.x"])).1

/-! ### The ancestor chain created by Add on an empty document -/

/-- The chain of joined paths below an already-joined prefix:
chainFrom pre [a, b] = [pre.a, pre.a.b]. -/
def chainFrom (pre : String) : List String → List String
  | [] => []
  | name :: rem => (pre ++ "." ++ name) :: chainFrom (pre ++ "." ++ name) rem

/-- The ancestor chain of a dotted path, root to leaf, ending in the path
itself. -/
def pathPrefixes (p : String) : List String :=
  match splitDot p with
  | [] => []
  | p0 :: rest => p0 :: chainFrom p0 rest

theorem str_append_assoc (a b c : String) : a ++ b ++ c = a ++ (b ++ c) := by
  apply String.ext
  simp [String.data_append]

theorem joinDot_mem_chainFrom :
    ∀ (rest : List String) (pre : String), rest ≠ [] →
      (pre ++ "." ++ joinDot rest) ∈ chainFrom pre rest
  | [], _, h => absurd rfl h
  | [name], pre, _ => by
    simp [chainFrom, joinDot]
  | name :: r0 :: r', pre, _ => by
    have hj : joinDot (name :: r0 :: r') = name ++ "." ++ joinDot (r0 :: r') := rfl
    rw [hj]
    have hassoc : pre ++ "." ++ (name ++ "." ++ joinDot (r0 :: r'))
        = (pre ++ "." ++ name) ++ "." ++ joinDot (r0 :: r') := by
      apply String.ext
      simp [String.data_append]
    rw [hassoc]
    exact List.mem_cons_of_mem _
      (joinDot_mem_chainFrom (r0 :: r') (pre ++ "." ++ name) (by simp))

theorem flattenSeq_addEmpty :
    ∀ (rest : List String) (pre : String),
      flattenSeqItems pre (addPathToSequence [] rest) = chainFrom pre rest
  | [], pre => by
    have h1 : addPathToSequence [] [] = [] := by
      unfold addPathToSequence
      rfl
    rw [h1]
    simp [flattenSeqItems, chainFrom]
  | [name], pre => by
    have h1 : addPathToSequence [] [name] = [scalarStr name] := by
      unfold addPathToSequence
      simp
    rw [h1]
    simp [flattenSeqItems, scalarStr, chainFrom]
  | name :: r0 :: r', pre => by
    have h1 : addPathToSequence [] (name :: r0 :: r')
        = [.mk .mapping "" ""
            [scalarStr name, .mk .sequence "" "" (addPathToSequence [] (r0 :: r'))]] := by
      conv_lhs => rw [addPathToSequence]
      simp [addSeqMapPass, addSeqScalarPass]
    rw [h1]
    simp only [flattenSeqItems, flattenMapPairs, scalarStr, YNode.value, YNode.kind,
      YNode.content, if_pos rfl, List.append_nil]
    rw [flattenSeq_addEmpty (r0 :: r') (pre ++ "." ++ name)]
    simp [chainFrom]

theorem mem_pathPrefixes (p : String) : p ∈ pathPrefixes p := by
  have hp : joinDot (splitDot p) = p := joinDot_splitDot p
  rcases hsp : splitDot p with _ | ⟨p0, rest⟩
  · exact absurd hsp (splitDot_ne_nil p)
  · rw [hsp] at hp
    unfold pathPrefixes
    rw [hsp]
    cases rest with
    | nil =>
      have hpe : p = p0 := by rw [← hp]; rfl
      simp [hpe, chainFrom]
    | cons r1 r2 =>
      have hpe : p = p0 ++ "." ++ joinDot (r1 :: r2) := by rw [← hp]; rfl
      rw [hpe]
      exact List.mem_cons_of_mem _ (joinDot_mem_chainFrom (r1 :: r2) p0 (by simp))

/-- C5: after a successful add of a path to the empty document, the path
exists and Flatten returns exactly the ancestor chain of the path plus
the path itself, in root-to-leaf order. -/
theorem C5_add_ancestor_chain (p : String) (doc' : YNode)
    (h : addC (.mk .document "" "" []) p = (doc', none)) :
    existsPath doc' p = true ∧ Flatten doc' = pathPrefixes p := by
  have hflat : Flatten doc' = pathPrefixes p := by
    by_cases hval : validatePathOk p = false
    · unfold addC at h
      rw [if_pos hval] at h
      injection h with h1 h2
      exact Option.noConfusion h2
    · unfold addC at h
      rw [if_neg hval] at h
      have hex : existsPath (YNode.mk .document "" "" []) p = false := rfl
      rw [if_neg (by simp [hex])] at h
      rcases hsp : splitDot p with _ | ⟨p0, rest⟩
      · exact absurd hsp (splitDot_ne_nil p)
      · rcases rest with _ | ⟨p1, rest2⟩
        · simp only [hsp, List.isEmpty_nil, YNode.content, List.isEmpty_cons,
            findOrCreateMapKeyWith, focPairs, emptyMapping, YNode.kind, YNode.tag,
            YNode.value] at h
          injection h with h1 h2
          subst h1
          simp [Flatten, flattenRootPairs, flattenMapPairs, focPairs, scalarStr,
            emptyMapping, YNode.kind, YNode.value, YNode.content, pathPrefixes, hsp,
            chainFrom]
        · rcases rest2 with _ | ⟨r0, rest3⟩
          · simp only [hsp, YNode.content, findOrCreateMapKeyWith, focPairs,
              emptyMapping, ensureSeq, YNode.kind, YNode.tag, YNode.value] at h
            injection h with h1 h2
            subst h1
            simp [Flatten, flattenRootPairs, flattenMapPairs, flattenSeqItems,
              focPairs, scalarStr, emptyMapping, ensureSeq, YNode.kind, YNode.value,
              YNode.content, pathPrefixes, hsp, chainFrom]
          · simp only [hsp, YNode.content, findOrCreateMapKeyWith, focPairs,
              emptyMapping, ensureSeq, setContent, YNode.kind, YNode.tag,
              YNode.value] at h
            injection h with h1 h2
            subst h1
            simp [Flatten, YNode.content, YNode.kind, flattenRootPairs,
              flattenMapPairs, flattenSeqItems, focPairs, scalarStr, emptyMapping,
              ensureSeq, YNode.value, pathPrefixes, hsp, chainFrom,
              flattenSeq_addEmpty]
  refine ⟨?_, hflat⟩
  unfold existsPath
  rw [hflat]
  exact List.elem_eq_true_of_mem (mem_pathPrefixes p)

theorem C5_witness :
    existsPath (addC (.mk .document "" "" []) "a.b.c").1 "a.b.c" = true ∧
    Flatten (addC (.mk .document "" "" []) "a.b.c").1 = pathPrefixes "a.b.c" := by
  refine C5_add_ancestor_chain "a.b.c" (addC (YNode.mk .document "" "" []) "a.b.c").1 ?_
  have h1 : (addC (YNode.mk .document "" "" []) "a.b.c").2 = none := rfl
  rw [← h1]

/-! ### Claim C4 -/

/-- A document with root key platform holding layers x (empty) and a
(with node b): the rename walk renames the first matching key at the
differing depth, so renaming platform.a.b to platform.x.b renames the
key a itself, and the reverse rename then hits the pre-existing x
first. -/
def c4Doc : YNode :=
  .mk .document "" "" [.mk .mapping "" ""
    [scalarStr "platform", .mk .mapping "" ""
      [scalarStr "x", .mk .sequence "" "" [],
       scalarStr "a", .mk .sequence "" "" [scalarStr "b"]]]]

/-- c4Doc after rename(platform.a.b, platform.x.b): key a became x. -/
def c4Doc1 : YNode :=
  .mk .document "" "" [.mk .mapping "" ""
    [scalarStr "platform", .mk .mapping "" ""
      [scalarStr "x", .mk .sequence "" "" [],
       scalarStr "x", .mk .sequence "" "" [scalarStr "b"]]]]

/-- c4Doc1 after rename(platform.x.b, platform.a.b): the FIRST key x (the
pre-existing empty layer) is renamed, not the one holding b. -/
def c4Doc2 : YNode :=
  .mk .document "" "" [.mk .mapping "" ""
    [scalarStr "platform", .mk .mapping "" ""
      [scalarStr "a", .mk .sequence "" "" [],
       scalarStr "x", .mk .sequence "" "" [scalarStr "b"]]]]

/-- C4 counterexample: both renames succeed, yet the round trip does not
restore the document, because the reverse walk renames the first key
matching the segment name at the differing depth and a sibling with the
new name already existed. -/
theorem C4_counterexample :
    renameDoc c4Doc "platform.a.b" "platform.x.b" = (c4Doc1, none) ∧
    renameDoc c4Doc1 "platform.x.b" "platform.a.b" = (c4Doc2, none) ∧
    c4Doc2 ≠ c4Doc := by
  have hsp1 : splitDot "platform.a.b" = ["platform", "a", "b"] := by decide
  have hsp2 : splitDot "platform.x.b" = ["platform", "x", "b"] := by decide
  refine ⟨?_, ?_, ?_⟩
  · unfold renameDoc chassisRename
    simp [hsp1, hsp2, existsPath, c4Doc, c4Doc1, Flatten, flattenRootPairs,
      flattenMapPairs, flattenSeqItems, YNode.content, YNode.kind, YNode.value,
      YNode.tag, scalarStr, List.contains, diffScan, renameInNode, renameMapPairs,
      renameSeqItems, renameItemPairs, List.getD]
  · unfold renameDoc chassisRename
    simp [hsp1, hsp2, existsPath, c4Doc1, c4Doc2, Flatten, flattenRootPairs,
      flattenMapPairs, flattenSeqItems, YNode.content, YNode.kind, YNode.value,
      YNode.tag, scalarStr, List.contains, diffScan, renameInNode, renameMapPairs,
      renameSeqItems, renameItemPairs, List.getD]
  · simp [c4Doc, c4Doc2, scalarStr]

/-- C4 amended: rename followed by the reverse rename restores the
document exactly, provided the new segment name did not already occur
anywhere in the original document, the forward walk actually found and
renamed the target, and the reverse pair passes the existence checks. -/
theorem C4_rename_roundtrip (doc doc' : YNode) (o n : String) (i : Nat)
    (root : YNode) (tl : List YNode)
    (hc : doc.content = root :: tl)
    (hds : diffScan (splitDot o) (splitDot n) 0 none = .ok i)
    (hocc : occursName ((splitDot n).getD i "") doc = false)
    (hflag : (renameInNode root (splitDot o) (splitDot n) i 0).2 = true)
    (hfwd : renameDoc doc o n = (doc', none))
    (hexn : existsPath doc' n = true)
    (hexo : existsPath doc' o = false) :
    renameDoc doc' n o = (doc, none) := by
  have hlen : (splitDot o).length = (splitDot n).length :=
    ds_ok_len (splitDot o) (splitDot n) 0 none i hds
  -- resolve the forward pipeline
  unfold renameDoc chassisRename at hfwd
  by_cases h1 : existsPath doc o = false
  · rw [if_pos h1] at hfwd
    injection hfwd with ha hb
    exact Option.noConfusion hb
  · rw [if_neg h1] at hfwd
    by_cases h2 : existsPath doc n
    · rw [if_pos h2] at hfwd
      injection hfwd with ha hb
      exact Option.noConfusion hb
    · rw [if_neg h2] at hfwd
      rw [if_neg (by omega)] at hfwd
      rw [hds, hc] at hfwd
      have hfwd2 : ((YNode.mk doc.kind doc.tag doc.value
          ((renameInNode root (splitDot o) (splitDot n) i 0).1 :: tl), none)
            : YNode × Option RenameErr) = (doc', none) := hfwd
      injection hfwd2 with ha hb
      -- the renamed root
      have hroot1 : renameInNode root (splitDot o) (splitDot n) i 0
          = ((renameInNode root (splitDot o) (splitDot n) i 0).1, true) := by
        rw [← hflag]
      have hocc_root : occursName ((splitDot n).getD i "") root = false := by
        cases doc with
        | mk kd tg vl c =>
          simp only [YNode.content] at hc
          subst hc
          exact (occursNameL_cons_false (occursName_mk_false hocc).2).1
      have hagree : ∀ d', d' ≠ i →
          (splitDot o).getD d' "" = (splitDot n).getD d' "" := by
        intro d' hd'
        exact ds_agree (splitDot o) (splitDot n) 0 i hds d' (by omega)
      have hrt := rtNode (splitDot o) (splitDot n) i hlen hagree root
        (renameInNode root (splitDot o) (splitDot n) i 0).1 0 hocc_root hroot1
      -- resolve the reverse pipeline
      subst ha
      have hsym := ds_symm (splitDot o) (splitDot n) 0 none i hds
      unfold renameDoc chassisRename
      rw [if_neg (by simp [hexn])]
      rw [if_neg (by simp [hexo])]
      rw [if_neg (by omega)]
      rw [hsym]
      show ((YNode.mk doc.kind doc.tag doc.value
          ((renameInNode (renameInNode root (splitDot o) (splitDot n) i 0).1
            (splitDot n) (splitDot o) i 0).1 :: tl), none)
          : YNode × Option RenameErr) = (doc, none)
      rw [hrt]
      show ((YNode.mk doc.kind doc.tag doc.value (root :: tl), none)
          : YNode × Option RenameErr) = (doc, none)
      rw [← hc, ynode_eta]

/-- A document with the single chain platform.foundation.cluster, for
instantiating the rename round trip. -/
def c4wDoc : YNode :=
  .mk .document "" "" [.mk .mapping "" ""
    [scalarStr "platform", .mk .mapping "" ""
      [scalarStr "foundation", .mk .sequence "" "" [scalarStr "cluster"]]]]

/-- c4wDoc after rename(platform.foundation.cluster,
platform.foundation.mgmt). -/
def c4wDoc1 : YNode :=
  .mk .document "" "" [.mk .mapping "" ""
    [scalarStr "platform", .mk .mapping "" ""
      [scalarStr "foundation", .mk .sequence "" "" [scalarStr "mgmt"]]]]

theorem C4_witness :
    renameDoc c4wDoc1 "platform.foundation.mgmt" "platform.foundation.cluster"
      = (c4wDoc, none) := by
  have hsp1 : splitDot "platform.foundation.cluster"
      = ["platform", "foundation", "cluster"] := by decide
  have hsp2 : splitDot "platform.foundation.mgmt"
      = ["platform", "foundation", "mgmt"] := by decide
  refine C4_rename_roundtrip c4wDoc c4wDoc1 "platform.foundation.cluster"
    "platform.foundation.mgmt" 2
    (.mk .mapping "" "" [scalarStr "platform", .mk .mapping "" ""
      [scalarStr "foundation", .mk .sequence "" "" [scalarStr "cluster"]]]) []
    rfl ?_ ?_ ?_ ?_ ?_ ?_
  · rw [hsp1, hsp2]
    simp [diffScan]
  · rw [hsp2]
    simp [occursName, occursNameL, c4wDoc, scalarStr, List.getD]
  · rw [hsp1, hsp2]
    simp [renameInNode, renameMapPairs, renameSeqItems, renameItemPairs,
      List.getD, scalarStr, YNode.value, YNode.kind, YNode.tag, YNode.content]
  · unfold renameDoc chassisRename
    simp [hsp1, hsp2, existsPath, c4wDoc, c4wDoc1, Flatten, flattenRootPairs,
      flattenMapPairs, flattenSeqItems, YNode.content, YNode.kind, YNode.value,
      YNode.tag, scalarStr, List.contains, diffScan, renameInNode, renameMapPairs,
      renameSeqItems, renameItemPairs, List.getD]
  · simp [existsPath, c4wDoc1, Flatten, flattenRootPairs, flattenMapPairs,
      flattenSeqItems, YNode.content, YNode.kind, YNode.value, YNode.tag, scalarStr,
      List.contains]
  · simp [existsPath, c4wDoc1, Flatten, flattenRootPairs, flattenMapPairs,
      flattenSeqItems, YNode.content, YNode.kind, YNode.value, YNode.tag, scalarStr,
      List.contains]
